import Mathlib

/-!
Shallow embedding of the ICM circuit-rewriting engine and its resource-graph
model (`icm.py`, `icm_graph.py`), with theorems checking the stated
properties of the decomposition, gate expansion, ICM transformation,
ancilla-cost estimation, graph construction and graph reduction passes.

Gates are modelled by name, target list, control list and symbolic angle
label.  The numeric `arg_value` field of the source's `Gate` objects is
elided: no modelled routine ever branches on it (all dispatch in the source
is on `gate.name` and `gate.arg_label`).  Python's `controls=None` and
`targets=None` are modelled as the empty list; the source only ever tests
controls for truthiness (where `None` and `[]` agree) before indexing.
-/

namespace IcmSpec

/-- A quantum gate: name, ordered targets, ordered controls and an optional
symbolic angle label (for example `\pi/2`, or the role tags `ancilla`,
`measurement`, `correction`, `input`, `output`). -/
structure Gate where
  name : String
  targets : List Nat
  controls : List Nat
  arg_label : Option String
deriving DecidableEq, Repr

/-- A circuit: qubit count `N` plus the ordered gate list. -/
structure Circuit where
  N : Nat
  gates : List Gate
deriving DecidableEq, Repr

/-- The canonical gate-identity map `_icm_gate_dict`: `(rotation axis, angle
label)` to one of the six named gates. -/
def icm_gate_dict : List ((String × String) × String) :=
  [(("RZ", "\\pi/2"), "P"),
   (("RZ", "\\pi/4"), "T"),
   (("RX", "\\pi/2"), "V"),
   (("RZ", "-\\pi/2"), "P_dagger"),
   (("RZ", "-\\pi/4"), "T_dagger"),
   (("RX", "-\\pi/2"), "V_dagger")]

/-- Dictionary lookup `_icm_gate_dict[(name, arg_label)]`; a `None` label is
never a key of the Python dict, so it looks up to nothing. -/
def icm_lookup (name : String) (lbl : Option String) : Option String :=
  lbl.bind (fun l => icm_gate_dict.lookup (name, l))

/-- The P gate: a rotation about RZ by `\pi/2` (or `-\pi/2` when `dagger`). -/
def pgate (targets : List Nat) (dagger : Bool := false) : Gate :=
  ⟨"RZ", targets, [], some (if dagger then "-\\pi/2" else "\\pi/2")⟩

/-- The T gate: a rotation about RZ by `\pi/4` (or `-\pi/4` when `dagger`). -/
def tgate (targets : List Nat) (dagger : Bool := false) : Gate :=
  ⟨"RZ", targets, [], some (if dagger then "-\\pi/4" else "\\pi/4")⟩

/-- The V gate: a rotation about RX by `\pi/2` (or `-\pi/2` when `dagger`). -/
def vgate (targets : List Nat) (dagger : Bool := false) : Gate :=
  ⟨"RX", targets, [], some (if dagger then "-\\pi/2" else "\\pi/2")⟩

/-- Plain CNOT gate constructor. -/
def cnotGate (control target : Nat) : Gate :=
  ⟨"CNOT", [target], [control], none⟩

/-- The 16 gates `decompose_toffoli` appends in place of a
`TOFFOLI(controls=[c1, c2], target=t)`. -/
def toffoliSeq (c1 c2 t : Nat) : List Gate :=
  [⟨"SNOT", [t], [], none⟩,
   cnotGate c2 t,
   tgate [t] true,
   cnotGate c1 t,
   tgate [t] false,
   cnotGate c2 t,
   tgate [t] true,
   cnotGate c1 t,
   tgate [c2] true,
   tgate [t] false,
   ⟨"SNOT", [t], [], none⟩,
   cnotGate c1 c2,
   tgate [c2] true,
   cnotGate c1 c2,
   tgate [c1] false,
   pgate [c2] false]

/-- `decompose_toffoli`: rewrite each TOFFOLI gate (reading `controls[0]`,
`controls[1]`, `targets[0]`) into `toffoliSeq`; append every other gate
unchanged. -/
def decompose_toffoli (qcircuit : Circuit) : Circuit :=
  ⟨qcircuit.N,
   qcircuit.gates.foldl
     (fun acc gate =>
       if gate.name = "TOFFOLI" then
         acc ++ toffoliSeq (gate.controls.getD 0 0) (gate.controls.getD 1 0)
           (gate.targets.getD 0 0)
       else acc ++ [gate]) []⟩

/-- `decompose_SNOT`: rewrite each SNOT gate into P; V; P on the same
targets; append every other gate unchanged. -/
def decompose_SNOT (qcircuit : Circuit) : Circuit :=
  ⟨qcircuit.N,
   qcircuit.gates.foldl
     (fun acc gate =>
       if gate.name = "SNOT" then
         acc ++ [pgate gate.targets, vgate gate.targets, pgate gate.targets]
       else acc ++ [gate]) []⟩

/-- Modelled from the spec: the external circuit-library collaborator's
"resolve to elementary basis {RX, RZ, CNOT, SNOT, TOFFOLI}" operation
(`QubitCircuit.resolve_gates`), which is not part of this repository.  Per
the input contract it passes a circuit already expressed over the elementary
basis through unchanged; every concrete circuit examined below is already
elementary, and all universal statements about `decompose_gates` are made
over its post-resolution relabelling loop `decompose_post`. -/
def resolve_gates (qcircuit : Circuit) : Circuit := qcircuit

/-- Relabelled copy of a gate used by the `\pi` split: same name, targets
and controls, with angle label `\pi/2`. -/
def pihalfCopy (g : Gate) : Gate :=
  ⟨g.name, g.targets, g.controls, some "\\pi/2"⟩

/-- The relabelling loop of `Icm.decompose_gates` over the resolved gate
list: a gate labelled `\pi` is appended twice with label `\pi/2`;
GLOBALPHASE, TOFFOLI, CNOT and SNOT gates are appended unchanged; any other
gate whose `(name, arg_label)` pair is absent from `icm_gate_dict` raises
(`ValueError`, modelled as `Except.error`); remaining gates are appended
unchanged. -/
def decompose_post : List Gate → Except Unit (List Gate)
  | [] => .ok []
  | gate :: rest =>
    if gate.arg_label = some "\\pi" then
      (decompose_post rest).map (fun tl => pihalfCopy gate :: pihalfCopy gate :: tl)
    else if gate.name = "GLOBALPHASE" then
      (decompose_post rest).map (fun tl => gate :: tl)
    else if gate.name = "TOFFOLI" then
      (decompose_post rest).map (fun tl => gate :: tl)
    else if gate.name = "CNOT" then
      (decompose_post rest).map (fun tl => gate :: tl)
    else if gate.name = "SNOT" then
      (decompose_post rest).map (fun tl => gate :: tl)
    else if icm_lookup gate.name gate.arg_label = none then
      .error ()
    else
      (decompose_post rest).map (fun tl => gate :: tl)

/-- `Icm.decompose_gates`: resolve to the elementary basis, then relabel;
the decomposed circuit keeps the resolved circuit's qubit count. -/
def decompose_gates (qcircuit : Circuit) : Except Unit Circuit :=
  let resolved := resolve_gates qcircuit
  (decompose_post resolved.gates).map (fun gs => ⟨resolved.N, gs⟩)

/-- The ancilla-cost tally returned by `Icm.ancilla_cost`, one counter per
gate kind. -/
structure AncillaCost where
  P : Nat
  T : Nat
  V : Nat
  SNOT : Nat
  TOFFOLI : Nat
deriving DecidableEq, Repr

/-- Sum of all counters, `sum(ancilla_qubits.values())`. -/
def AncillaCost.total (c : AncillaCost) : Nat :=
  c.P + c.T + c.V + c.SNOT + c.TOFFOLI

/-- One iteration of the tally loop in `Icm.ancilla_cost`. -/
def cost_step (cost : AncillaCost) (gate : Gate) : Except Unit AncillaCost :=
  if gate.name = "CNOT" then .ok cost
  else if gate.name = "SNOT" then .ok { cost with SNOT := cost.SNOT + 3 }
  else if gate.name = "TOFFOLI" then .ok { cost with TOFFOLI := cost.TOFFOLI + 42 }
  else
    match icm_lookup gate.name gate.arg_label with
    | none => .error ()
    | some icm_gate =>
      let cost := if icm_gate = "P" ∨ icm_gate = "P_dagger" then
        { cost with P := cost.P + 1 } else cost
      let cost := if icm_gate = "T" ∨ icm_gate = "T_dagger" then
        { cost with T := cost.T + 5 } else cost
      let cost := if icm_gate = "V" ∨ icm_gate = "V_dagger" then
        { cost with V := cost.V + 1 } else cost
      .ok cost

/-- `Icm.ancilla_cost`: decompose, then tally P/P† at 1 each, T/T† at 5
each, V/V† at 1 each, SNOT at 3 and TOFFOLI at 42; a decomposed gate that is
none of these and has no `icm_gate_dict` entry raises `ValueError`. -/
def ancilla_cost (qcircuit : Circuit) : Except Unit AncillaCost := do
  let decomposed ← decompose_gates qcircuit
  decomposed.gates.foldlM cost_step ⟨0, 0, 0, 0, 0⟩

/-- The three rewrite stages of `Icm.to_icm`: the P/P† loop, the V/V† loop
and the T/T† loop, in that order. -/
inductive StageKind
  | P
  | V
  | T
deriving DecidableEq, Repr

/-- Index-shift amount of a stage: 1 ancilla for P/P†, 1 for V/V†, 5 for
T/T†. -/
def stageShift : StageKind → Nat
  | .P => 1
  | .V => 1
  | .T => 5

/-- Whether a dictionary value matches a stage's pattern, for example
`_icm_gate_dict[...] == "P" or _icm_gate_dict[...] == "P_dagger"`. -/
def stageNames (k : StageKind) (v : String) : Bool :=
  match k with
  | .P => v = "P" ∨ v = "P_dagger"
  | .V => v = "V" ∨ v = "V_dagger"
  | .T => v = "T" ∨ v = "T_dagger"

/-- The role tags that make the stage scans skip a gate outright. -/
def scanSkipTags : List String :=
  ["ancilla", "measurement", "correction", "input", "output"]

/-- Whether a label is one of the three gadget tags that exempt a gate from
the pre-`idx` index shift. -/
def gadgetTagged (lbl : Option String) : Bool :=
  lbl = some "ancilla" ∨ lbl = some "measurement" ∨ lbl = some "correction"

/-- Index shift applied to each gate before the matched position: gadget
gates (`ancilla`/`measurement`/`correction`) are left alone; otherwise the
leading target gets `+ s` exactly when it is strictly greater than `t`, and
independently the leading control gets `+ s` exactly when it is strictly
greater than `t`. -/
def shift_before (s t : Nat) (g : Gate) : Gate :=
  if gadgetTagged g.arg_label then g
  else
    let g := match g.targets with
      | x :: r => if x > t then { g with targets := (x + s) :: r } else g
      | [] => g
    match g.controls with
    | x :: r => if x > t then { g with controls := (x + s) :: r } else g
    | [] => g

/-- Index shift applied to each gate after the inserted gadget: the leading
target gets `+ s` exactly when it is greater than or equal to `t`, and
independently the leading control gets `+ s` under the same test; no gate is
exempt. -/
def shift_after (s t : Nat) (g : Gate) : Gate :=
  let g := match g.targets with
    | x :: r => if x ≥ t then { g with targets := (x + s) :: r } else g
    | [] => g
  match g.controls with
  | x :: r => if x ≥ t then { g with controls := (x + s) :: r } else g
  | [] => g

/-- The teleportation gadget replacing a matched gate with target `t`:
ancilla initialisations, entangling CNOTs, a measurement and (chained)
corrections, exactly as inserted at `idx .. idx+3` (P/V) or `idx .. idx+15`
(T) by the source. -/
def gadget (k : StageKind) (t : Nat) : List Gate :=
  match k with
  | .P =>
    [⟨"Y", [t + 1], [], some "ancilla"⟩,
     ⟨"CNOT", [t], [t + 1], none⟩,
     ⟨"z", [t], [], some "measurement"⟩,
     ⟨"xz", [t + 1], [t], some "correction"⟩]
  | .V =>
    [⟨"y", [t + 1], [], some "ancilla"⟩,
     ⟨"CNOT", [t + 1], [t], none⟩,
     ⟨"x", [t], [], some "measurement"⟩,
     ⟨"x/z", [t + 1], [t], some "correction"⟩]
  | .T =>
    [⟨"a", [t + 1], [], some "ancilla"⟩,
     ⟨"0", [t + 2], [], some "ancilla"⟩,
     ⟨"y", [t + 3], [], some "ancilla"⟩,
     ⟨"+", [t + 4], [], some "ancilla"⟩,
     ⟨"0", [t + 5], [], some "ancilla"⟩,
     ⟨"CNOT", [t], [t + 1], none⟩,
     ⟨"CNOT", [t + 2], [t + 1], none⟩,
     ⟨"CNOT", [t + 1], [t + 3], none⟩,
     ⟨"CNOT", [t + 2], [t + 4], none⟩,
     ⟨"CNOT", [t + 5], [t + 3], none⟩,
     ⟨"CNOT", [t + 5], [t + 4], none⟩,
     ⟨"z", [t], [], some "measurement"⟩,
     ⟨"z/x", [t + 1], [t], some "correction"⟩,
     ⟨"x/z", [t + 2], [t + 1], some "correction"⟩,
     ⟨"x/z", [t + 3], [t + 2], some "correction"⟩,
     ⟨"z/x", [t + 4], [t + 3], some "correction"⟩]

/-- One stage's forward scan over the gate list.  `done` holds the already
scanned prefix in reverse.  A CNOT, a tagged gate, or a gate whose
dictionary entry names another kind is passed over; a gate with no
dictionary entry raises `KeyError` (modelled as `Except.error`); a match at
target `t` rewrites the scanned prefix with `shift_before`, substitutes the
gadget, rewrites the unscanned suffix with `shift_after`, and the scan
continues after the gadget (whose gates are CNOTs or tagged, hence never
re-matched — exactly the behaviour of the source's `enumerate` resuming
inside the freshly inserted gadget). -/
def stageGo (k : StageKind) : Nat → List Gate → List Gate → Except Unit (List Gate)
  | _, done, [] => .ok done.reverse
  | 0, done, rest => .ok (done.reverse ++ rest)
  | fuel + 1, done, gate :: rest =>
    if gate.name = "CNOT" then
      stageGo k fuel (gate :: done) rest
    else if gate.arg_label.any (fun l => l ∈ scanSkipTags) then
      stageGo k fuel (gate :: done) rest
    else
      match icm_lookup gate.name gate.arg_label with
      | none => .error ()
      | some v =>
        if stageNames k v then
          let t := gate.targets.getD 0 0
          stageGo k fuel
            ((gadget k t).reverse ++ done.map (shift_before (stageShift k) t))
            (rest.map (shift_after (stageShift k) t))
        else
          stageGo k fuel (gate :: done) rest

/-- Run one stage over a full gate list.  The structural fuel is seeded with
the list length; each step consumes one element of the unscanned suffix and
the shift maps preserve its length, so the fuel never runs out. -/
def stageRun (k : StageKind) (gates : List Gate) : Except Unit (List Gate) :=
  stageGo k gates.length [] gates

/-- Whether a stage's scan passes over a gate without rewriting and without
raising: a CNOT, a gate whose label is one of the five skip tags, or a gate
whose dictionary entry names another kind. -/
def stageSkips (k : StageKind) (g : Gate) : Bool :=
  g.name = "CNOT" || g.arg_label.any (fun l => l ∈ scanSkipTags) ||
    (match icm_lookup g.name g.arg_label with
     | some v => !(stageNames k v)
     | none => false)

/-- Whether a stage's scan rewrites a gate: not a CNOT, not tagged, and its
dictionary entry names this stage's kind. -/
def stageMatches (k : StageKind) (g : Gate) : Bool :=
  (g.name ≠ "CNOT") && (!g.arg_label.any (fun l => l ∈ scanSkipTags)) &&
    (match icm_lookup g.name g.arg_label with
     | some v => stageNames k v
     | none => false)

/-- `IN` framing gates, one per original qubit. -/
def inGates (n : Nat) : List Gate :=
  (List.range n).map (fun i => ⟨"IN", [i], [], some "input"⟩)

/-- `OUT` framing gates, one per original qubit. -/
def outGates (n : Nat) : List Gate :=
  (List.range n).map (fun i => ⟨"OUT", [i], [], some "output"⟩)

/-- `Icm.to_icm`: decompose, size the output via `ancilla_cost`, expand
TOFFOLI and SNOT, frame with `IN`/`OUT` gates, then run the P, V and T
teleportation stages in that order. -/
def to_icm (qcircuit : Circuit) : Except Unit Circuit := do
  let decomposed ← decompose_gates qcircuit
  let ancilla_qubits ← ancilla_cost qcircuit
  let total_qubits := decomposed.N + ancilla_qubits.total
  let expanded := decompose_SNOT (decompose_toffoli decomposed)
  let framed := inGates expanded.N ++ expanded.gates ++ outGates expanded.N
  let afterP ← stageRun .P framed
  let afterV ← stageRun .V afterP
  let afterT ← stageRun .T afterV
  pure ⟨total_qubits, afterT⟩

/-! ## Resource graph (`icm_graph.py`)

Graphs are undirected `networkx.Graph` objects: a node set with attribute
records plus a simple edge set (no parallel edges; adding an existing edge
is a no-op).  Node keys are Python tuples whose middle component is an `int`
for `cleft`/`cright`/`target` nodes and a `str` for `rough` nodes. -/

/-- Middle component of a node key: an `int` or a `str` in the source. -/
inductive NodeLbl
  | num (n : Nat)
  | str (s : String)
deriving DecidableEq, Repr

/-- Node identity key `(gate index, qubit-or-pair label, role)`. -/
structure NodeId where
  gc : Nat
  bit : NodeLbl
  role : String
deriving DecidableEq, Repr

/-- Node attributes read by some modelled pass: display color, layout
position and the optional pin list.  The layout coordinates — multiples of
one half in the source (`gate_count ± 0.50`, `-(target + control)/2.`) —
are stored doubled, as integer half-units, so both components stay in `ℤ`;
no modelled routine reads them back.  The other `get_icm_attrs` slots (bit,
gate_count, smooth, rough, X, Z, injector, injector_type, contracted_pins)
are `None` in every call and read by no modelled routine, and the
`contraction` bookkeeping entry `networkx.contracted_nodes` stores on the
kept node is likewise read by nothing; they are elided. -/
structure NodeAttrs where
  color : String
  pos : Int × Int
  pin : Option (List String)
deriving DecidableEq, Repr

/-- An undirected graph: ordered node records (insertion order is Python's
dict order, which candidate scans iterate) and an edge list kept free of
duplicates in either orientation. -/
structure IcmGraph where
  nodes : List (NodeId × NodeAttrs)
  edges : List (NodeId × NodeId)
deriving DecidableEq, Repr

/-- The node keys, in insertion order. -/
def nodeIds (g : IcmGraph) : List NodeId :=
  g.nodes.map Prod.fst

/-- Attributes of a node, if present. -/
def getAttrs (g : IcmGraph) (v : NodeId) : Option NodeAttrs :=
  (g.nodes.find? (fun p => p.1 = v)).map Prod.snd

/-- The pin attribute `g.node[v]["pin"]`.  Every modelled access is to a
node present in the graph; an absent node yields `none` here where Python
would raise `KeyError`. -/
def pinOf (g : IcmGraph) (v : NodeId) : Option (List String) :=
  ((getAttrs g v).map NodeAttrs.pin).getD none

/-- `networkx` attribute record for a node materialised purely as an edge
endpoint (an empty Python attribute dict); only reachable by contracting a
self-looped node, which no self-loop-free run performs. -/
def blankAttrs : NodeAttrs :=
  ⟨"", (0, 0), none⟩

/-- `add_node` with attributes: update in place if present, else append. -/
def addNodeAttrs (g : IcmGraph) (v : NodeId) (a : NodeAttrs) : IcmGraph :=
  if v ∈ nodeIds g then
    ⟨g.nodes.map (fun p => if p.1 = v then (p.1, a) else p), g.edges⟩
  else ⟨g.nodes ++ [(v, a)], g.edges⟩

/-- `add_edge`: create missing endpoints (with blank attributes), then add
the edge unless it is already present in either orientation. -/
def addEdge (g : IcmGraph) (a b : NodeId) : IcmGraph :=
  let withA := if a ∈ nodeIds g then g else ⟨g.nodes ++ [(a, blankAttrs)], g.edges⟩
  let withB := if b ∈ nodeIds withA then withA
    else ⟨withA.nodes ++ [(b, blankAttrs)], withA.edges⟩
  if (a, b) ∈ withB.edges ∨ (b, a) ∈ withB.edges then withB
  else ⟨withB.nodes, withB.edges ++ [(a, b)]⟩

/-- `g.neighbors(v)`: the adjacent nodes, each once (a self loop lists `v`
itself once, as in `networkx`). -/
def neighbors (g : IcmGraph) (v : NodeId) : List NodeId :=
  (g.edges.filterMap (fun e =>
    if e.1 = v then some e.2 else if e.2 = v then some e.1 else none)).dedup

/-- `g.remove_node(v)`: drop the node record and all incident edges.
Python raises on an absent node; every modelled unguarded call is to a
present node, and the one guarded call site (`two_loop_reduction`'s second
removal, wrapped in `try/except: pass`) coincides with this total no-op. -/
def removeNode (g : IcmGraph) (v : NodeId) : IcmGraph :=
  ⟨g.nodes.filter (fun p => p.1 ≠ v),
   g.edges.filter (fun e => e.1 ≠ v ∧ e.2 ≠ v)⟩

/-- `nx.set_node_attributes(g, "pin", {v: p})`. -/
def setPin (g : IcmGraph) (v : NodeId) (p : Option (List String)) : IcmGraph :=
  ⟨g.nodes.map (fun q => if q.1 = v then (q.1, { q.2 with pin := p }) else q),
   g.edges⟩

/-- `nx.contracted_nodes(g, u, v, self_loops=False)`: re-aim each edge
`(v, w)` with `w ≠ u` at `u`, drop the `v`–`u` edge, remove `v`, then add
the re-aimed edges (`add_edges_from`). -/
def contracted_nodes (g : IcmGraph) (u v : NodeId) : IcmGraph :=
  let newEdges := (neighbors g v).filterMap
    (fun w => if w = u then none else some (u, w))
  let g1 := removeNode g v
  newEdges.foldl (fun h e => addEdge h e.1 e.2) g1

/-- Append `x` to row `i` of a row matrix; out-of-range is Python's
`IndexError`. -/
def matPush (mat : List (List α)) (i : Nat) (x : α) : Option (List (List α)) :=
  match mat.get? i with
  | some row => some (mat.set i (row ++ [x]))
  | none => none

/-- Entry of a `_get_bit_blocks` row: a non-CNOT gate's argument label, or a
CNOT touch tuple. -/
inductive RowEntry
  | lbl (l : Option String)
  | nid (n : NodeId)
deriving DecidableEq, Repr

/-- `_get_bit_blocks`: per qubit line, the ordered markers.  A non-CNOT
gate contributes its argument label (and sets the running `target_bit`
variable); a CNOT contributes `cleft`/`cright` touches on its control line
and, on its target line, a touch built from the *stale* `target_bit` of the
last non-CNOT gate — reading that variable before any non-CNOT gate has
bound it is Python's `UnboundLocalError` (modelled, like the index errors,
as `none`). -/
def bit_blocks (icm_rep : Circuit) : Option (List (List RowEntry)) :=
  (icm_rep.gates.foldlM
    (fun (st : List (List RowEntry) × Nat × Option Nat) (gate : Gate) =>
      if gate.name ≠ "CNOT" then do
        let target_bit ← gate.targets.head?
        let mat ← matPush st.1 target_bit (.lbl gate.arg_label)
        some (mat, st.2.1, some target_bit)
      else do
        let cb ← gate.controls.head?
        let tb ← gate.targets.head?
        let stale ← st.2.2
        let mat ← matPush st.1 cb (.nid ⟨st.2.1, .num cb, "cleft"⟩)
        let mat ← matPush mat cb (.nid ⟨st.2.1, .num cb, "cright"⟩)
        let mat ← matPush mat tb (.nid ⟨st.2.1, .num stale, "target"⟩)
        some (mat, st.2.1 + 1, st.2.2))
    (List.replicate icm_rep.N [], 0, none)).map Prod.fst

/-- Python list indexing with a possibly negative index (negative indices
wrap from the end); out of range is `IndexError`. -/
def pyGet (row : List α) (i : Int) : Option α :=
  if 0 ≤ i then row.get? i.toNat
  else if (-i).toNat ≤ row.length then row.get? (row.length - (-i).toNat)
  else none

/-- The pin-classification `try` block of `construct_icm_graph` for one
CNOT.  A failed `.index` lookup (`ValueError`) is caught and leaves the
pins assigned so far; an out-of-range `[... + 1]` access (`IndexError`) is
*not* caught and aborts graph construction (`none`). -/
def classify_pins (rowC rowT : List RowEntry) (cleft cright target : NodeId) :
    Option (Option (List String) × Option (List String) × Option (List String)) :=
  match rowC.indexOf? (.nid cleft) with
  | none => some (none, none, none)
  | some i =>
    match pyGet rowC ((i : Int) - 1) with
    | none => none
    | some prev =>
      let pc := if prev = .lbl (some "input") then some ["cap"] else none
      let pc := if prev = .lbl (some "ancilla") then some ["injector"] else pc
      match rowC.indexOf? (.nid cright) with
      | none => some (pc, none, none)
      | some j =>
        match rowC.get? (j + 1) with
        | none => none
        | some nxt =>
          let pr := if nxt = .lbl (some "output") then some ["cap"] else none
          let pr := if nxt = .lbl (some "measurement") then some ["cap"] else pr
          let pr := if nxt = .lbl (some "correction") then some ["cap"] else pr
          match rowT.indexOf? (.nid target) with
          | none => some (pc, pr, none)
          | some k =>
            match pyGet rowT ((k : Int) - 1) with
            | none => none
            | some tprev =>
              let pt := if tprev = .lbl (some "input") then some ["cap"] else none
              let pt := if tprev = .lbl (some "ancilla") then some ["injector"] else pt
              match rowT.get? (k + 1) with
              | none => none
              | some tnxt =>
                let pt := if tnxt = .lbl (some "output") then some ["cap"] else pt
                let pt := if tnxt = .lbl (some "measurement") then some ["cap"] else pt
                let pt := if tnxt = .lbl (some "correction") then some ["cap"] else pt
                some (pc, pr, pt)

/-- The per-CNOT body of `construct_icm_graph`: add the 3-star (`cleft`,
`cright`, `target` around a `rough` centre) with the source's attributes
and classified pins; non-CNOT gates leave the state alone.  Since the gate
counter makes each CNOT's node keys fresh, this accumulation coincides with
the source's `nx.compose_all` over the per-gate subgraphs. -/
def construct_step (blocks : List (List RowEntry)) (st : IcmGraph × Nat)
    (gate : Gate) : Option (IcmGraph × Nat) :=
  if gate.name = "CNOT" then do
    let control_bit ← gate.controls.head?
    let target_bit ← gate.targets.head?
    let gc := st.2
    let rough : NodeId :=
      ⟨gc, .str (toString control_bit ++ toString target_bit), "rough"⟩
    let cleft : NodeId := ⟨gc, .num control_bit, "cleft"⟩
    let cright : NodeId := ⟨gc, .num control_bit, "cright"⟩
    let target : NodeId := ⟨gc, .num target_bit, "target"⟩
    let rowC ← blocks.get? control_bit
    let rowT ← blocks.get? target_bit
    let pins ← classify_pins rowC rowT cleft cright target
    let g := addNodeAttrs st.1 cleft
      ⟨"r", (2 * (gc : Int) - 1, -(2 * (control_bit : Int))), pins.1⟩
    let g := addNodeAttrs g cright
      ⟨"r", (2 * (gc : Int) + 1, -(2 * (control_bit : Int))), pins.2.1⟩
    let g := addNodeAttrs g target
      ⟨"r", (2 * (gc : Int), -(2 * (target_bit : Int))), pins.2.2⟩
    let g := addNodeAttrs g rough
      ⟨"b", (2 * (gc : Int), -((target_bit : Int) + (control_bit : Int))), none⟩
    let g := addEdge g cleft rough
    let g := addEdge g cright rough
    let g := addEdge g target rough
    some (g, gc + 1)
  else some st

/-- Body of `construct_icm_graph` continued: fold the per-CNOT star
construction over the gate list, then fail like `nx.compose_all([])` when
no CNOT was seen. -/
def construct_icm_graph (qcircuit : Circuit) : Option IcmGraph := do
  let blocks ← bit_blocks qcircuit
  let st ← qcircuit.gates.foldlM (construct_step blocks) ((⟨[], []⟩ : IcmGraph), 0)
  if st.2 = 0 then none else some st.1

/-- `_get_mergers`'s per-line touch matrix (CNOT touches only, with the
target bit read correctly from each gate). -/
def mergers_cmat (circuit : Circuit) : Option (List (List NodeId)) :=
  (circuit.gates.foldlM
    (fun (st : List (List NodeId) × Nat) (gate : Gate) =>
      if gate.name = "CNOT" then do
        let tb ← gate.targets.head?
        let cb ← gate.controls.head?
        let mat ← matPush st.1 cb ⟨st.2, .num cb, "cleft"⟩
        let mat ← matPush mat cb ⟨st.2, .num cb, "cright"⟩
        let mat ← matPush mat tb ⟨st.2, .num tb, "target"⟩
        some (mat, st.2 + 1)
      else some st)
    (List.replicate circuit.N [], 0)).map Prod.fst

/-- The run of row entries following position `i`, up to (excluding) the
next `cright` touch. -/
def runAfter (row : List NodeId) (i : Nat) : List NodeId :=
  (row.drop (i + 1)).takeWhile (fun e => e.role ≠ "cright")

/-- The `t_mergers` table: each `target` touch paired with its nonempty
following run. -/
def t_mergers (mat : List (List NodeId)) : List (NodeId × List NodeId) :=
  mat.flatMap (fun row =>
    row.enum.filterMap (fun p =>
      if p.2.role = "target" ∧ runAfter row p.1 ≠ [] then
        some (p.2, runAfter row p.1)
      else none))

/-- The `c_mergers` table: each `cright` touch paired with the immediately
following row entry, when one exists. -/
def c_mergers (mat : List (List NodeId)) : List (NodeId × NodeId) :=
  mat.flatMap (fun row =>
    row.enum.filterMap (fun p =>
      if p.2.role = "cright" then (row.get? (p.1 + 1)).map (fun nxt => (p.2, nxt))
      else none))

/-- One contraction of `combine_graph`: union the two nodes' pins (an empty
union becomes `None`), contract `item` into `key`, set the merged pin.  The
source's unguarded `g.node[key]`/`g.node[item]` accesses raise `KeyError`
when a node was already merged away; modelled as `none`. -/
def merge_step (key item : NodeId) (g : IcmGraph) : Option IcmGraph :=
  if key ∈ nodeIds g ∧ item ∈ nodeIds g then
    let temp_pins := ((pinOf g key).getD []) ++ ((pinOf g item).getD [])
    let tp := if temp_pins = [] then none else some temp_pins
    some (setPin (contracted_nodes g key item) key tp)
  else none

/-- `combine_graph`: contract every `t_mergers` run into its `target` node,
then every `c_mergers` successor into its `cright` node, in table order. -/
def combine_graph (g : IcmGraph) (circuit : Circuit) : Option IcmGraph := do
  let mat ← mergers_cmat circuit
  let g ← (t_mergers mat).foldlM
    (fun h kv => kv.2.foldlM (fun h2 item => merge_step kv.1 item h2) h) g
  (c_mergers mat).foldlM (fun h kv => merge_step kv.1 kv.2 h) g

/-- The body of `teleport`'s scan for one node of the original node list: a
degree-1 node is contracted into its sole neighbour while the teleport
budget lasts; the merged pin is the (possibly empty) union `temp_pin` — the
`if len(temp_pin) == 0: temp_pins = None` line assigns a *different*
variable, so the empty list, not `None`, is written back. -/
def teleport_step (count : Nat) (st : IcmGraph × Nat) (node : NodeId) :
    IcmGraph × Nat :=
  let g := st.1
  match neighbors g node with
  | [nb] =>
    let temp_pin := ((pinOf g node).getD []) ++ ((pinOf g nb).getD [])
    if st.2 < count then
      (setPin (contracted_nodes g nb node) nb (some temp_pin), st.2 + 1)
    else st
  | _ => st

/-- `teleport`: scan the original node list in order, contracting up to
`count` degree-1 nodes into their sole neighbours. -/
def teleport (g : IcmGraph) (count : Nat := 1) : IcmGraph :=
  ((nodeIds g).foldl (teleport_step count) (g, 0)).1

/-- Candidates of `two_loop_reduction`: pin-free nodes of degree exactly 2,
in scan order. -/
def two_loop_removeables (g : IcmGraph) : List NodeId :=
  g.nodes.filterMap (fun p =>
    if p.2.pin = none ∧ (neighbors g p.1).length = 2 then some p.1 else none)

/-- The `optional` list of `two_loop_reduction`: every candidate's pin-free
neighbours, concatenated in scan order. -/
def two_loop_optional (g : IcmGraph) : List NodeId :=
  (two_loop_removeables g).flatMap
    (fun n => (neighbors g n).filter (fun m => pinOf g m = none))

/-- `two_loop_reduction`: with no candidate the graph is returned
untouched.  Otherwise `removeables[opt1]` is removed — an out-of-range
`opt1` is an uncaught `IndexError` (`none`) — and the second removal
`optional[opt2]` sits inside a bare `try/except: pass`, so an out-of-range
`opt2` (or an already-removed node) is silently skipped. -/
def two_loop_reduction (g : IcmGraph) (opt1 : Nat := 0) (opt2 : Nat := 0) :
    Option IcmGraph :=
  let removeables := two_loop_removeables g
  let optional := two_loop_optional g
  if removeables = [] then some g
  else
    match removeables.get? opt1 with
    | none => none
    | some r =>
      let g1 := removeNode g r
      if optional = [] then some g1
      else
        match optional.get? opt2 with
        | none => some g1
        | some m => some (removeNode g1 m)

/-- Candidates of `three_loop_reduction`: pin-free nodes of degree exactly
3, in scan order. -/
def three_loop_removeables (g : IcmGraph) : List NodeId :=
  g.nodes.filterMap (fun p =>
    if p.2.pin = none ∧ (neighbors g p.1).length = 3 then some p.1 else none)

/-- The `optional` dict of `three_loop_reduction`: candidates with at least
one pin-free neighbour, mapped to those neighbours. -/
def three_loop_optional (g : IcmGraph) : List (NodeId × List NodeId) :=
  (three_loop_removeables g).filterMap (fun n =>
    let l := (neighbors g n).filter (fun m => pinOf g m = none)
    if l ≠ [] then some (n, l) else none)

/-- `three_loop_reduction`: with no candidate the graph is returned
untouched.  Otherwise both removals are unguarded: an out-of-range `opt1`
(`IndexError`), a selected candidate absent from `optional` (`KeyError`) or
an out-of-range `opt2` (`IndexError`) all raise (`none`). -/
def three_loop_reduction (g : IcmGraph) (opt1 : Nat := 0) (opt2 : Nat := 0) :
    Option IcmGraph :=
  let removeables := three_loop_removeables g
  if removeables = [] then some g
  else
    match removeables.get? opt1 with
    | none => none
    | some r =>
      let g1 := removeNode g r
      match (three_loop_optional g).lookup r with
      | none => none
      | some lst =>
        match lst.get? opt2 with
        | none => none
        | some m => some (removeNode g1 m)

/-- No edge joins a node to itself. -/
def selfLoopFree (g : IcmGraph) : Bool :=
  g.edges.all (fun e => e.1 ≠ e.2)

/-- Every edge endpoint is a node of the graph. -/
def edgesWF (g : IcmGraph) : Bool :=
  g.edges.all (fun e => e.1 ∈ nodeIds g ∧ e.2 ∈ nodeIds g)

/-- Node keys are distinct (they key a Python dict). -/
def nodesNodup (g : IcmGraph) : Bool :=
  (nodeIds g).Nodup

/-- The well-formedness every built resource graph enjoys and every pass
preserves. -/
def goodGraph (g : IcmGraph) : Bool :=
  nodesNodup g && edgesWF g && selfLoopFree g

/-- Whether a computation succeeded (no Python exception escaped). -/
def exceptOk : Except Unit α → Bool
  | .ok _ => true
  | .error _ => false

/-- The fatal-input condition of the decomposition stage: a gate that is
not labelled `\pi`, is none of GLOBALPHASE/TOFFOLI/CNOT/SNOT, and whose
`(name, angle-label)` pair is absent from the canonical map. -/
def unsupportedGate (g : Gate) : Bool :=
  if g.arg_label = some "\\pi" then false
  else if g.name = "GLOBALPHASE" ∨ g.name = "TOFFOLI" ∨ g.name = "CNOT" ∨
      g.name = "SNOT" then false
  else (icm_lookup g.name g.arg_label).isNone

/-! ## Concrete scenario inputs -/

/-- The `test_icm_P` circuit: `CNOT(0→1); CNOT(1→0); RZ(0, π/2); CNOT(1→0)`
on two qubits. -/
def pScenario : Circuit :=
  ⟨2, [cnotGate 0 1, cnotGate 1 0, ⟨"RZ", [0], [], some "\\pi/2"⟩, cnotGate 1 0]⟩

/-- What `to_icm` produces on `pScenario` (established below): the IN
frame, the shifted CNOT network with the P gadget spliced in, and the OUT
frame. -/
def pScenarioIcm : Circuit :=
  ⟨3, [⟨"IN", [0], [], some "input"⟩,
       ⟨"IN", [2], [], some "input"⟩,
       ⟨"CNOT", [2], [0], none⟩,
       ⟨"CNOT", [0], [2], none⟩,
       ⟨"Y", [1], [], some "ancilla"⟩,
       ⟨"CNOT", [0], [1], none⟩,
       ⟨"z", [0], [], some "measurement"⟩,
       ⟨"xz", [1], [0], some "correction"⟩,
       ⟨"CNOT", [1], [2], none⟩,
       ⟨"OUT", [1], [], some "output"⟩,
       ⟨"OUT", [2], [], some "output"⟩]⟩

/-- The `test_ancilla_cost` circuit: two TOFFOLIs, two SNOTs and one RX of
angle π. -/
def costScenario : Circuit :=
  ⟨5, [⟨"TOFFOLI", [2], [0, 1], none⟩,
       ⟨"SNOT", [3], [], none⟩,
       ⟨"RX", [5], [], some "\\pi"⟩,
       ⟨"TOFFOLI", [0], [1, 2], none⟩,
       ⟨"SNOT", [2], [], none⟩]⟩

/-- A GLOBALPHASE gate carrying the angle label `\pi`. -/
def globalphasePi : Gate :=
  ⟨"GLOBALPHASE", [], [], some "\\pi"⟩

/-- A rotation whose `(axis, angle-label)` pair is outside the canonical
map (`RX` by `\pi/10`). -/
def unsupportedRx : Gate :=
  ⟨"RX", [0], [], some "\\pi/10"⟩

/-- A circuit whose gates are exactly one `CNOT(control=0, target=1)`. -/
def bareCnotCircuit : Circuit :=
  ⟨2, [cnotGate 0 1]⟩

/-- The same single CNOT framed by `IN`/`OUT` gates, as `to_icm` output
always is. -/
def framedCnotCircuit : Circuit :=
  ⟨2, [⟨"IN", [0], [], some "input"⟩,
       ⟨"IN", [1], [], some "input"⟩,
       cnotGate 0 1,
       ⟨"OUT", [0], [], some "output"⟩,
       ⟨"OUT", [1], [], some "output"⟩]⟩

/-- The graph `construct_icm_graph` builds from `framedCnotCircuit`
(established below): the 3-star of the lone CNOT. -/
def starGraph : IcmGraph :=
  ⟨[(⟨0, .num 0, "cleft"⟩, ⟨"r", (-1, 0), some ["cap"]⟩),
    (⟨0, .num 0, "cright"⟩, ⟨"r", (1, 0), some ["cap"]⟩),
    (⟨0, .num 1, "target"⟩, ⟨"r", (0, -2), some ["cap"]⟩),
    (⟨0, .str "01", "rough"⟩, ⟨"b", (0, -1), none⟩)],
   [(⟨0, .num 0, "cleft"⟩, ⟨0, .str "01", "rough"⟩),
    (⟨0, .num 0, "cright"⟩, ⟨0, .str "01", "rough"⟩),
    (⟨0, .num 1, "target"⟩, ⟨0, .str "01", "rough"⟩)]⟩

/-- A pin-free three-node path `cleft — cright — target`. -/
def pathGraph : IcmGraph :=
  ⟨[(⟨0, .num 0, "cleft"⟩, ⟨"r", (0, 0), none⟩),
    (⟨0, .num 0, "cright"⟩, ⟨"r", (0, 0), none⟩),
    (⟨0, .num 1, "target"⟩, ⟨"r", (0, 0), none⟩)],
   [(⟨0, .num 0, "cleft"⟩, ⟨0, .num 0, "cright"⟩),
    (⟨0, .num 0, "cright"⟩, ⟨0, .num 1, "target"⟩)]⟩

/-- A pin-free single edge `cleft — cright` (no node of degree 2 or 3). -/
def edgeGraph : IcmGraph :=
  ⟨[(⟨0, .num 0, "cleft"⟩, ⟨"r", (0, 0), none⟩),
    (⟨0, .num 0, "cright"⟩, ⟨"r", (0, 0), none⟩)],
   [(⟨0, .num 0, "cleft"⟩, ⟨0, .num 0, "cright"⟩)]⟩

/-! # Theorems -/

/-- Folding an append-step over a list is a `flatMap`. -/
lemma foldl_step_flatMap {α β : Type} (step : List β → α → List β)
    (f : α → List β) (h : ∀ acc x, step acc x = acc ++ f x) :
    ∀ (l : List α) (init : List β), l.foldl step init = init ++ l.flatMap f := by
  intro l
  induction l with
  | nil => intro init; simp
  | cons x xs ih =>
    intro init
    simp only [List.foldl_cons, List.flatMap_cons, h, ih, List.append_assoc]

/-- C3 counterexample: on a lone `TOFFOLI(controls=[0,1], target=2)` the
fixed-gate expander emits sixteen gates, not the claimed fifteen. -/
theorem toffoli_expansion_has_sixteen_gates :
    (decompose_toffoli ⟨5, [⟨"TOFFOLI", [2], [0, 1], none⟩]⟩).gates.length = 16 ∧
    (16 : Nat) ≠ 15 :=
  ⟨rfl, by decide⟩

/-- C3 (amended): the fixed-gate expander rewrites every
`TOFFOLI(controls=[c1,c2], target=t)` into exactly the sixteen-gate
sequence SNOT(t); CNOT(c2→t); T†(t); CNOT(c1→t); T(t); CNOT(c2→t); T†(t);
CNOT(c1→t); T†(c2); T(t); SNOT(t); CNOT(c1→c2); T†(c2); CNOT(c1→c2);
T(c1); P(c2), in that literal order, and leaves every non-TOFFOLI gate
unchanged in relative order. -/
theorem decompose_toffoli_rewrites :
    (∀ qc : Circuit, decompose_toffoli qc =
      ⟨qc.N, qc.gates.flatMap (fun g =>
        if g.name = "TOFFOLI" then
          toffoliSeq (g.controls.getD 0 0) (g.controls.getD 1 0) (g.targets.getD 0 0)
        else [g])⟩) ∧
    (∀ c1 c2 t : Nat, toffoliSeq c1 c2 t =
      [⟨"SNOT", [t], [], none⟩,
       ⟨"CNOT", [t], [c2], none⟩,
       ⟨"RZ", [t], [], some "-\\pi/4"⟩,
       ⟨"CNOT", [t], [c1], none⟩,
       ⟨"RZ", [t], [], some "\\pi/4"⟩,
       ⟨"CNOT", [t], [c2], none⟩,
       ⟨"RZ", [t], [], some "-\\pi/4"⟩,
       ⟨"CNOT", [t], [c1], none⟩,
       ⟨"RZ", [c2], [], some "-\\pi/4"⟩,
       ⟨"RZ", [t], [], some "\\pi/4"⟩,
       ⟨"SNOT", [t], [], none⟩,
       ⟨"CNOT", [c2], [c1], none⟩,
       ⟨"RZ", [c2], [], some "-\\pi/4"⟩,
       ⟨"CNOT", [c2], [c1], none⟩,
       ⟨"RZ", [c1], [], some "\\pi/4"⟩,
       ⟨"RZ", [c2], [], some "\\pi/2"⟩]) := by
  constructor
  · intro qc
    have hf : ∀ (acc : List Gate) (x : Gate),
        (if x.name = "TOFFOLI" then
          acc ++ toffoliSeq (x.controls.getD 0 0) (x.controls.getD 1 0) (x.targets.getD 0 0)
        else acc ++ [x]) =
        acc ++ (if x.name = "TOFFOLI" then
          toffoliSeq (x.controls.getD 0 0) (x.controls.getD 1 0) (x.targets.getD 0 0)
        else [x]) := by
      intro acc x
      by_cases hx : x.name = "TOFFOLI" <;> simp [hx]
    unfold decompose_toffoli
    rw [foldl_step_flatMap _ _ hf, List.nil_append]
  · intro c1 c2 t
    rfl

/-- C2 counterexample: on the `test_icm_P` circuit the first gate of the
ICM output is the `IN` framing gate on qubit 0, not a CNOT. -/
theorem icm_P_first_gate_is_IN :
    (to_icm pScenario).map (fun c => (c.gates.headD ⟨"", [], [], none⟩).name) =
      .ok "IN" ∧
    "IN" ≠ "CNOT" :=
  ⟨rfl, by decide⟩

/-- C2 (amended): `to_icm` on `CNOT(0→1); CNOT(1→0); RZ(0, π/2); CNOT(1→0)`
yields `pScenarioIcm`; its first CNOT (the gate at index 2, right after the
two IN gates) has control 0 and target 2, and its last CNOT (the gate at
index 8, right before the gadget-shifted OUT gates) has control 2 and
target 1. -/
theorem icm_P_scenario_gates :
    to_icm pScenario = .ok pScenarioIcm ∧
    (pScenarioIcm.gates.filter (fun g => g.name = "CNOT")).head? =
      some ⟨"CNOT", [2], [0], none⟩ ∧
    (pScenarioIcm.gates.filter (fun g => g.name = "CNOT")).getLast? =
      some ⟨"CNOT", [1], [2], none⟩ ∧
    pScenarioIcm.gates.getD 2 ⟨"", [], [], none⟩ = ⟨"CNOT", [2], [0], none⟩ ∧
    pScenarioIcm.gates.getD 8 ⟨"", [], [], none⟩ = ⟨"CNOT", [1], [2], none⟩ :=
  ⟨rfl, rfl, rfl, rfl, rfl⟩

/-- C5 counterexample: a GLOBALPHASE gate labelled `\pi` does not pass
through the decomposition relabelling unchanged — the `\pi` branch is
tested first, so it is split into two GLOBALPHASE gates labelled `\pi/2`. -/
theorem globalphase_pi_is_split :
    decompose_post [globalphasePi] =
      .ok [⟨"GLOBALPHASE", [], [], some "\\pi/2"⟩,
           ⟨"GLOBALPHASE", [], [], some "\\pi/2"⟩] ∧
    [⟨"GLOBALPHASE", [], [], some "\\pi/2"⟩,
     ⟨"GLOBALPHASE", [], [], some "\\pi/2"⟩] ≠ [globalphasePi] :=
  ⟨rfl, by decide⟩

/-- C7: on a circuit whose gates are exactly one `CNOT(0→1)` the
resource-graph builder crashes (`_get_bit_blocks` reads the uninitialised
`target_bit` variable) instead of returning the 4-node star; with any
non-CNOT gate binding `target_bit` first — as in every IN-framed ICM
circuit — the very same CNOT produces exactly 4 nodes and 3 edges, all
centred on the `rough` node. -/
theorem construct_single_cnot_crashes :
    construct_icm_graph bareCnotCircuit = none ∧
    construct_icm_graph framedCnotCircuit = some starGraph ∧
    starGraph.nodes.length = 4 ∧
    starGraph.edges.length = 3 ∧
    starGraph.edges.all (fun e => e.2.role = "rough") = true :=
  ⟨rfl, by decide, rfl, rfl, rfl⟩

/-- C9 counterexample: `two_loop_reduction` with candidates present and an
out-of-range `opt1` raises (`IndexError` on `removeables[opt1]`) rather
than returning the graph unchanged. -/
theorem two_loop_invalid_opt1_raises :
    two_loop_reduction pathGraph 1 0 = none ∧
    two_loop_removeables pathGraph ≠ [] ∧
    three_loop_reduction starGraph 0 0 = none :=
  ⟨rfl, by decide, rfl⟩

/-- C9 (amended): with no eligible pin-free node of the required degree
both reductions return the graph unchanged (byte for byte), and in
`two_loop_reduction` any in-range `opt1` is safe for every `opt2` (the
second removal sits in `try/except: pass`); but an out-of-range `opt1`
with candidates present raises, as does `three_loop_reduction` when the
selected candidate has no pin-free neighbour or `opt2` is out of range. -/
theorem loop_reduction_no_candidate_noop :
    (∀ (g : IcmGraph) (o1 o2 : Nat), two_loop_removeables g = [] →
      two_loop_reduction g o1 o2 = some g) ∧
    (∀ (g : IcmGraph) (o1 o2 : Nat), three_loop_removeables g = [] →
      three_loop_reduction g o1 o2 = some g) ∧
    (∀ (g : IcmGraph) (o1 o2 : Nat), o1 < (two_loop_removeables g).length →
      ∃ g', two_loop_reduction g o1 o2 = some g') := by
  refine ⟨?_, ?_, ?_⟩
  · intro g o1 o2 h
    simp [two_loop_reduction, h]
  · intro g o1 o2 h
    simp [three_loop_reduction, h]
  · intro g o1 o2 h
    have hne : two_loop_removeables g ≠ [] := by
      intro hnil
      rw [hnil] at h
      simp at h
    cases hr : (two_loop_removeables g)[o1]? with
    | none =>
      rw [List.getElem?_eq_none_iff] at hr
      omega
    | some r =>
      by_cases hopt : two_loop_optional g = []
      · exact ⟨removeNode g r, by simp [two_loop_reduction, hne, hr, hopt]⟩
      · cases hm : (two_loop_optional g)[o2]? with
        | none =>
          exact ⟨removeNode g r, by simp [two_loop_reduction, hne, hr, hopt, hm]⟩
        | some m =>
          exact ⟨removeNode (removeNode g r) m,
            by simp [two_loop_reduction, hne, hr, hopt, hm]⟩

/-- C5 (amended): in the decomposition relabelling, *every* gate whose
angle label is exactly `\pi` — elementary rotations, but also GLOBALPHASE,
TOFFOLI, CNOT or SNOT gates so labelled, since the `\pi` test comes first —
is replaced by two consecutive copies of itself with label `\pi/2` (same
name, targets and controls), while GLOBALPHASE, TOFFOLI, CNOT and SNOT
gates *not* labelled `\pi` pass through unchanged with their original
targets, controls and argument labels, preserving relative order. -/
theorem decompose_post_pi_split (gs : List Gate)
    (h : ∀ g ∈ gs, unsupportedGate g = false) :
    decompose_post gs = .ok (gs.flatMap (fun g =>
      if g.arg_label = some "\\pi" then
        [⟨g.name, g.targets, g.controls, some "\\pi/2"⟩,
         ⟨g.name, g.targets, g.controls, some "\\pi/2"⟩]
      else [g])) := by
  induction gs with
  | nil => rfl
  | cons g gs ih =>
    have hg := h g (List.mem_cons_self g gs)
    have ih' := ih (fun x hx => h x (List.mem_cons_of_mem g hx))
    by_cases hpi : g.arg_label = some "\\pi"
    · simp [decompose_post, hpi, ih', pihalfCopy, Except.map]
    · by_cases h1 : g.name = "GLOBALPHASE"
      · simp [decompose_post, hpi, h1, ih', Except.map]
      · by_cases h2 : g.name = "TOFFOLI"
        · simp [decompose_post, hpi, h1, h2, ih', Except.map]
        · by_cases h3 : g.name = "CNOT"
          · simp [decompose_post, hpi, h1, h2, h3, ih', Except.map]
          · by_cases h4 : g.name = "SNOT"
            · simp [decompose_post, hpi, h1, h2, h3, h4, ih', Except.map]
            · have hlook : ¬ icm_lookup g.name g.arg_label = none := by
                simp [unsupportedGate, hpi, h1, h2, h3, h4] at hg
                intro hn
                rw [hn] at hg
                simp at hg
              simp [decompose_post, hpi, h1, h2, h3, h4, hlook, ih', Except.map]

/-- C5 witness: the split applied to the decomposition-test gate list
(TOFFOLI, SNOT, RX(π)): only the π rotation is doubled. -/
theorem decompose_post_pi_split_witness :
    decompose_post costScenario.gates = .ok (costScenario.gates.flatMap (fun g =>
      if g.arg_label = some "\\pi" then
        [⟨g.name, g.targets, g.controls, some "\\pi/2"⟩,
         ⟨g.name, g.targets, g.controls, some "\\pi/2"⟩]
      else [g])) :=
  decompose_post_pi_split costScenario.gates (by decide)

/-- Mapping over a fallible result does not change whether it failed. -/
lemma exceptOk_map {α β : Type} (f : α → β) (e : Except Unit α) :
    exceptOk (e.map f) = exceptOk e := by
  cases e <;> rfl

/-- Binding a successful step runs the continuation. -/
lemma ebind_ok {α β : Type} (a : α) (f : α → Except Unit β) :
    (Except.ok a >>= f) = f a := rfl

/-- Binding a failed step propagates the failure. -/
lemma ebind_err {α β : Type} (e : Unit) (f : α → Except Unit β) :
    ((Except.error e : Except Unit α) >>= f) = Except.error e := rfl

/-- Binding a present option runs the continuation. -/
lemma obind_some {α β : Type} (a : α) (f : α → Option β) :
    (some a >>= f) = f a := rfl

/-- Binding an absent option propagates the absence. -/
lemma obind_none {α β : Type} (f : α → Option β) :
    ((none : Option α) >>= f) = none := rfl

/-- The decomposition relabelling fails exactly when some gate satisfies
the unsupported-gate condition. -/
lemma decompose_post_isOk_eq (gs : List Gate) :
    exceptOk (decompose_post gs) = !gs.any unsupportedGate := by
  induction gs with
  | nil => rfl
  | cons g gs ih =>
    by_cases hpi : g.arg_label = some "\\pi"
    · simp [decompose_post, hpi, exceptOk_map, ih, unsupportedGate]
    · by_cases h1 : g.name = "GLOBALPHASE"
      · simp [decompose_post, hpi, h1, exceptOk_map, ih, unsupportedGate]
      · by_cases h2 : g.name = "TOFFOLI"
        · simp [decompose_post, hpi, h1, h2, exceptOk_map, ih, unsupportedGate]
        · by_cases h3 : g.name = "CNOT"
          · simp [decompose_post, hpi, h1, h2, h3, exceptOk_map, ih, unsupportedGate]
          · by_cases h4 : g.name = "SNOT"
            · simp [decompose_post, hpi, h1, h2, h3, h4, exceptOk_map, ih,
                unsupportedGate]
            · cases hl : icm_lookup g.name g.arg_label with
              | none =>
                simp [decompose_post, hpi, h1, h2, h3, h4, hl, exceptOk,
                  unsupportedGate]
              | some v =>
                simp [decompose_post, hpi, h1, h2, h3, h4, hl, exceptOk_map, ih,
                  unsupportedGate]

/-- C6: decomposition fails (a fatal `ValueError`, never recovered) if and
only if some gate that is not labelled `\pi` and is none of
GLOBALPHASE/TOFFOLI/CNOT/SNOT has an `(axis, angle-label)` pair absent from
the canonical gate-identity map; and the same condition aborts the full ICM
expansion `to_icm`. -/
theorem unsupported_gate_error_iff :
    (∀ gs : List Gate,
      (exceptOk (decompose_post gs) = false ↔ ∃ g ∈ gs, unsupportedGate g = true)) ∧
    (∀ qc : Circuit, (∃ g ∈ (resolve_gates qc).gates, unsupportedGate g = true) →
      exceptOk (to_icm qc) = false) := by
  constructor
  · intro gs
    rw [decompose_post_isOk_eq]
    simp [List.any_eq_true]
  · rintro qc ⟨g, hmem, hg⟩
    have h1 : exceptOk (decompose_post (resolve_gates qc).gates) = false := by
      rw [decompose_post_isOk_eq]
      simp only [Bool.not_eq_false', List.any_eq_true]
      exact ⟨g, hmem, hg⟩
    cases hd : decompose_post (resolve_gates qc).gates with
    | ok v => rw [hd] at h1; simp [exceptOk] at h1
    | error e =>
      simp [to_icm, decompose_gates, hd, exceptOk, Except.map, Except.bind, bind]

/-- C6 witness: an `RX` rotation by `\pi/10` is fatal to both stages. -/
theorem unsupported_gate_error_iff_witness :
    ((exceptOk (decompose_post [unsupportedRx]) = false) ↔
      (∃ g ∈ [unsupportedRx], unsupportedGate g = true)) ∧
    exceptOk (to_icm ⟨2, [unsupportedRx]⟩) = false :=
  ⟨unsupported_gate_error_iff.1 [unsupportedRx],
   unsupported_gate_error_iff.2 ⟨2, [unsupportedRx]⟩
     ⟨unsupportedRx, by decide, by decide⟩⟩

/-- C4: the ancilla-cost estimator tallies P/P† at 1 each, V/V† at 1 each,
T/T† at 5 each, SNOT at 3 and TOFFOLI at 42 over the decomposed circuit —
on the two-TOFFOLI/two-SNOT/one-RX(π) scenario the cost map is
{P: 0, T: 0, V: 2, SNOT: 6, TOFFOLI: 84} — and whenever the ICM transform
succeeds, its resulting total qubit count is the decomposed circuit's qubit
count plus the sum of all tallied counts. -/
theorem ancilla_cost_tallies :
    ancilla_cost costScenario = .ok ⟨0, 0, 2, 6, 84⟩ ∧
    (∀ qc icm : Circuit, to_icm qc = .ok icm →
      ∃ dec cost, decompose_gates qc = .ok dec ∧ ancilla_cost qc = .ok cost ∧
        icm.N = dec.N + cost.total) := by
  constructor
  · rfl
  · intro qc icm h
    unfold to_icm at h
    cases hd : decompose_gates qc with
    | error e => simp only [hd, ebind_err] at h; simp at h
    | ok dec =>
      simp only [hd, ebind_ok] at h
      cases hc : ancilla_cost qc with
      | error e => simp only [hc, ebind_err] at h; simp at h
      | ok cost =>
        simp only [hc, ebind_ok] at h
        cases h1 : stageRun .P (inGates (decompose_SNOT (decompose_toffoli dec)).N ++
            (decompose_SNOT (decompose_toffoli dec)).gates ++
            outGates (decompose_SNOT (decompose_toffoli dec)).N) with
        | error e => simp only [h1, ebind_err] at h; simp at h
        | ok afterP =>
          simp only [h1, ebind_ok] at h
          cases h2 : stageRun .V afterP with
          | error e => simp only [h2, ebind_err] at h; simp at h
          | ok afterV =>
            simp only [h2, ebind_ok] at h
            cases h3 : stageRun .T afterV with
            | error e => simp only [h3, ebind_err] at h; simp at h
            | ok afterT =>
              simp only [h3, ebind_ok] at h
              simp only [pure, Except.pure, Except.ok.injEq] at h
              exact ⟨dec, cost, rfl, rfl, by rw [← h]⟩

/-- C4 witness: on the P-gadget scenario the ICM output's qubit count 3 is
the decomposed count 2 plus the single tallied P ancilla. -/
theorem ancilla_cost_tallies_witness :
    ∃ dec cost, decompose_gates pScenario = .ok dec ∧
      ancilla_cost pScenario = .ok cost ∧ pScenarioIcm.N = dec.N + cost.total :=
  ancilla_cost_tallies.2 pScenario pScenarioIcm rfl

/-- The index shifts change neither a gate's name nor its label. -/
lemma shift_after_name_label (s t : Nat) (g : Gate) :
    (shift_after s t g).name = g.name ∧
    (shift_after s t g).arg_label = g.arg_label := by
  rcases g with ⟨n, ts, cs, l⟩
  cases ts <;> cases cs <;> simp only [shift_after] <;>
    (try split_ifs) <;> (try simp) <;> (try split_ifs) <;> (try simp)

/-- A gate the scan passes over is still passed over after the post-gadget
shift (the shift touches only targets and controls). -/
lemma stageSkips_shift_after (k : StageKind) (s t : Nat) (g : Gate)
    (h : stageSkips k g = true) : stageSkips k (shift_after s t g) = true := by
  obtain ⟨hn, hl⟩ := shift_after_name_label s t g
  simpa [stageSkips, hn, hl] using h

/-- One scan step over a passed-over gate. -/
lemma stageGo_skip_step (k : StageKind) (fuel : Nat) (done : List Gate)
    (g : Gate) (rest : List Gate) (h : stageSkips k g = true) :
    stageGo k (fuel + 1) done (g :: rest) = stageGo k fuel (g :: done) rest := by
  by_cases h1 : g.name = "CNOT"
  · simp [stageGo, h1]
  · by_cases h2 : g.arg_label.any (fun l => l ∈ scanSkipTags)
    · simp [stageGo, h1, h2]
    · cases hl : icm_lookup g.name g.arg_label with
      | none => exact absurd h (by simp [stageSkips, h1, h2, hl])
      | some v =>
        have hv : stageNames k v = false := by
          simpa [stageSkips, h1, h2, hl] using h
        simp [stageGo, h1, h2, hl, hv]

/-- One scan step over a matched gate: rewrite the prefix with
`shift_before`, substitute the gadget, rewrite the suffix with
`shift_after`. -/
lemma stageGo_match_step (k : StageKind) (fuel : Nat) (done : List Gate)
    (g : Gate) (rest : List Gate) (h : stageMatches k g = true) :
    stageGo k (fuel + 1) done (g :: rest) =
      stageGo k fuel
        ((gadget k (g.targets.getD 0 0)).reverse ++
          done.map (shift_before (stageShift k) (g.targets.getD 0 0)))
        (rest.map (shift_after (stageShift k) (g.targets.getD 0 0))) := by
  simp only [stageMatches, Bool.and_eq_true, decide_eq_true_eq,
    Bool.not_eq_true'] at h
  obtain ⟨⟨h1, h2⟩, h3⟩ := h
  cases hl : icm_lookup g.name g.arg_label with
  | none => rw [hl] at h3; exact absurd h3 (by simp)
  | some v =>
    rw [hl] at h3
    have h3' : stageNames k v = true := by simpa using h3
    simp [stageGo, h1, h2, hl, h3']

/-- A scan over passed-over gates reaches the end unchanged. -/
lemma stageGo_skips (k : StageKind) :
    ∀ (rest : List Gate) (fuel : Nat) (done : List Gate),
      rest.length ≤ fuel → (∀ g ∈ rest, stageSkips k g = true) →
      stageGo k fuel done rest = .ok (done.reverse ++ rest) := by
  intro rest
  induction rest with
  | nil => intro fuel done _ _; cases fuel <;> simp [stageGo]
  | cons g rest ih =>
    intro fuel done hlen hskip
    cases fuel with
    | zero => simp at hlen
    | succ fuel =>
      rw [stageGo_skip_step k fuel done g rest (hskip g (List.mem_cons_self g rest)),
        ih fuel (g :: done) (by simpa using hlen)
          (fun x hx => hskip x (List.mem_cons_of_mem g hx))]
      simp

/-- A scan walks through a passed-over prefix, accumulating it reversed. -/
lemma stageGo_enter (k : StageKind) :
    ∀ (pre : List Gate) (fuel : Nat) (done rest : List Gate),
      (∀ g ∈ pre, stageSkips k g = true) →
      stageGo k (pre.length + fuel) done (pre ++ rest) =
        stageGo k fuel (pre.reverse ++ done) rest := by
  intro pre
  induction pre with
  | nil => intro fuel done rest _; simp
  | cons g pre ih =>
    intro fuel done rest hskip
    have hstep := stageGo_skip_step k (pre.length + fuel) done g (pre ++ rest)
      (hskip g (List.mem_cons_self g pre))
    have : (g :: pre).length + fuel = (pre.length + fuel) + 1 := by
      simp [Nat.add_comm, Nat.add_assoc, Nat.add_left_comm]
    rw [this, List.cons_append, hstep,
      ih fuel (g :: done) rest (fun x hx => hskip x (List.mem_cons_of_mem g hx))]
    simp

/-- C1: in each ICM stage (P, V, T with shifts 1, 1, 5), the rewrite of a
matched gate with target `t` maps every earlier gate through
`shift_before` — untouched when tagged ancilla/measurement/correction,
otherwise leading target and, independently, leading control incremented
by `s` exactly when strictly greater than `t` — splices in the gadget, and
maps every later gate through `shift_after` — leading target and,
independently, leading control incremented by `s` exactly when greater
than or equal to `t`. -/
theorem icm_stage_shifts (k : StageKind) (pre post : List Gate) (g : Gate)
    (t : Nat) (ts : List Nat)
    (hpre : ∀ x ∈ pre, stageSkips k x = true)
    (hpost : ∀ x ∈ post, stageSkips k x = true)
    (hmatch : stageMatches k g = true)
    (htarg : g.targets = t :: ts) :
    stageRun k (pre ++ g :: post) =
      .ok (pre.map (shift_before (stageShift k) t) ++ gadget k t ++
        post.map (shift_after (stageShift k) t)) ∧
    (∀ (s u : Nat) (x : Gate), shift_before s u x =
      if gadgetTagged x.arg_label then x
      else ⟨x.name,
        (match x.targets with
         | i :: r => (if u < i then i + s else i) :: r
         | [] => []),
        (match x.controls with
         | i :: r => (if u < i then i + s else i) :: r
         | [] => []),
        x.arg_label⟩) ∧
    (∀ (s u : Nat) (x : Gate), shift_after s u x =
      ⟨x.name,
        (match x.targets with
         | i :: r => (if u ≤ i then i + s else i) :: r
         | [] => []),
        (match x.controls with
         | i :: r => (if u ≤ i then i + s else i) :: r
         | [] => []),
        x.arg_label⟩) ∧
    stageShift .P = 1 ∧ stageShift .V = 1 ∧ stageShift .T = 5 := by
  refine ⟨?_, ?_, ?_, rfl, rfl, rfl⟩
  · have hL : (pre ++ g :: post).length = pre.length + (post.length + 1) := by
      simp [List.length_append, List.length_cons]
    have hgetD : g.targets.getD 0 0 = t := by rw [htarg]; rfl
    rw [stageRun, hL, stageGo_enter k pre (post.length + 1) [] (g :: post) hpre,
      stageGo_match_step k post.length (pre.reverse ++ []) g post hmatch, hgetD,
      stageGo_skips k (post.map (shift_after (stageShift k) t)) post.length _
        (by simp)
        (fun x hx => by
          obtain ⟨y, hy, rfl⟩ := List.mem_map.mp hx
          exact stageSkips_shift_after k (stageShift k) t y (hpost y hy))]
    simp [List.reverse_append, List.map_reverse]
  · intro s u x
    rcases x with ⟨n, xts, xcs, l⟩
    by_cases htag : gadgetTagged l
    · simp [shift_before, htag]
    · cases xts <;> cases xcs <;>
        simp only [shift_before, htag, Bool.false_eq_true, if_false, gt_iff_lt] <;>
        (try split_ifs) <;> simp_all
  · intro s u x
    rcases x with ⟨n, xts, xcs, l⟩
    cases xts <;> cases xcs <;>
      simp only [shift_after, ge_iff_le] <;> (try split_ifs) <;> simp_all

/-- C1 witness: the P stage on `CNOT(0→1); RZ(0, π/2); CNOT(1→0)`. -/
theorem icm_stage_shifts_witness :
    stageRun .P ([cnotGate 0 1] ++ ⟨"RZ", [0], [], some "\\pi/2"⟩ :: [cnotGate 1 0]) =
      .ok ([cnotGate 0 1].map (shift_before (stageShift .P) 0) ++ gadget .P 0 ++
        [cnotGate 1 0].map (shift_after (stageShift .P) 0)) :=
  (icm_stage_shifts .P [cnotGate 0 1] [cnotGate 1 0]
    ⟨"RZ", [0], [], some "\\pi/2"⟩ 0 []
    (by decide) (by decide) (by decide) rfl).1

/-- Unfolding of graph well-formedness. -/
lemma goodGraph_iff (g : IcmGraph) :
    goodGraph g = true ↔
      (nodeIds g).Nodup ∧
      (∀ e ∈ g.edges, e.1 ∈ nodeIds g ∧ e.2 ∈ nodeIds g) ∧
      (∀ e ∈ g.edges, e.1 ≠ e.2) := by
  simp [goodGraph, nodesNodup, edgesWF, selfLoopFree, List.all_eq_true,
    and_assoc]

/-- Filtering node records on the key commutes with taking the keys. -/
lemma mapFst_filter_ne (l : List (NodeId × NodeAttrs)) (v : NodeId) :
    ((l.filter (fun p => p.1 ≠ v)).map Prod.fst) =
      (l.map Prod.fst).filter (fun x => x ≠ v) := by
  induction l with
  | nil => rfl
  | cons q l ih =>
    by_cases hq : q.1 = v <;> simp [List.filter_cons, hq] <;> simpa using ih

/-- `remove_node` keys. -/
lemma nodeIds_removeNode (g : IcmGraph) (v : NodeId) :
    nodeIds (removeNode g v) = (nodeIds g).filter (fun x => x ≠ v) := by
  simpa [removeNode, nodeIds] using mapFst_filter_ne g.nodes v

/-- `remove_node` never adds nodes. -/
lemma length_removeNode_le (g : IcmGraph) (v : NodeId) :
    (removeNode g v).nodes.length ≤ g.nodes.length :=
  List.length_filter_le _ _

/-- `remove_node` of a present node strictly shrinks the node set. -/
lemma length_removeNode_lt (g : IcmGraph) (v : NodeId) (h : v ∈ nodeIds g) :
    (removeNode g v).nodes.length < g.nodes.length := by
  obtain ⟨p, hp, hfst⟩ := List.mem_map.mp h
  exact List.length_filter_lt_length_iff_exists.mpr ⟨p, hp, by simp [hfst]⟩

/-- Membership in the keys after `remove_node`. -/
lemma mem_nodeIds_removeNode (g : IcmGraph) (v x : NodeId)
    (hx : x ∈ nodeIds g) (hne : x ≠ v) : x ∈ nodeIds (removeNode g v) := by
  rw [nodeIds_removeNode]
  simp [List.mem_filter, hx, hne]

/-- `remove_node` preserves well-formedness. -/
lemma goodGraph_removeNode (g : IcmGraph) (v : NodeId)
    (h : goodGraph g = true) : goodGraph (removeNode g v) = true := by
  obtain ⟨hnd, hwf, hsl⟩ := (goodGraph_iff g).mp h
  refine (goodGraph_iff _).mpr ⟨?_, ?_, ?_⟩
  · rw [nodeIds_removeNode]; exact hnd.filter _
  · intro e he
    have he' : e ∈ g.edges ∧ (e.1 ≠ v ∧ e.2 ≠ v) := by
      simpa [removeNode, List.mem_filter] using he
    exact ⟨mem_nodeIds_removeNode g v _ (hwf e he'.1).1 he'.2.1,
      mem_nodeIds_removeNode g v _ (hwf e he'.1).2 he'.2.2⟩
  · intro e he
    have he' : e ∈ g.edges ∧ (e.1 ≠ v ∧ e.2 ≠ v) := by
      simpa [removeNode, List.mem_filter] using he
    exact hsl e he'.1

/-- `set_node_attributes` leaves the keys unchanged. -/
lemma nodeIds_setPin (g : IcmGraph) (v : NodeId) (p : Option (List String)) :
    nodeIds (setPin g v p) = nodeIds g := by
  unfold setPin nodeIds
  induction g.nodes with
  | nil => rfl
  | cons q l ih =>
    by_cases hq : q.1 = v <;> simp [hq] at ih ⊢ <;> exact ih

/-- `set_node_attributes` preserves well-formedness and node count. -/
lemma setPin_good (g : IcmGraph) (v : NodeId) (p : Option (List String))
    (h : goodGraph g = true) :
    goodGraph (setPin g v p) = true ∧
    (setPin g v p).nodes.length = g.nodes.length := by
  obtain ⟨hnd, hwf, hsl⟩ := (goodGraph_iff g).mp h
  have hids := nodeIds_setPin g v p
  have hedges : (setPin g v p).edges = g.edges := rfl
  refine ⟨(goodGraph_iff _).mpr ⟨?_, ?_, ?_⟩, by simp [setPin]⟩
  · rw [hids]; exact hnd
  · intro e he; rw [hids]; exact hwf e (by rwa [hedges] at he)
  · intro e he; exact hsl e (by rwa [hedges] at he)

/-- A neighbour comes from an incident edge. -/
lemma mem_neighbors_edge (g : IcmGraph) (v w : NodeId)
    (h : w ∈ neighbors g v) :
    ∃ e ∈ g.edges, (e.1 = v ∧ e.2 = w) ∨ (e.1 = w ∧ e.2 = v) := by
  unfold neighbors at h
  rw [List.mem_dedup] at h
  obtain ⟨e, he, hfe⟩ := List.mem_filterMap.mp h
  by_cases h1 : e.1 = v
  · refine ⟨e, he, Or.inl ⟨h1, ?_⟩⟩
    simpa [h1] using hfe
  · by_cases h2 : e.2 = v
    · refine ⟨e, he, Or.inr ⟨?_, h2⟩⟩
      simpa [h1, h2] using hfe
    · simp [h1, h2] at hfe

/-- In a well-formed graph a neighbour of `v` is a node distinct from `v`,
and `v` itself is a node. -/
lemma neighbors_facts (g : IcmGraph) (v w : NodeId)
    (hg : goodGraph g = true) (h : w ∈ neighbors g v) :
    w ∈ nodeIds g ∧ w ≠ v ∧ v ∈ nodeIds g := by
  obtain ⟨hnd, hwf, hsl⟩ := (goodGraph_iff g).mp hg
  obtain ⟨e, he, hcase⟩ := mem_neighbors_edge g v w h
  rcases hcase with ⟨h1, h2⟩ | ⟨h1, h2⟩
  · exact ⟨h2 ▸ (hwf e he).2, by rw [← h1, ← h2]; exact (hsl e he).symm,
      h1 ▸ (hwf e he).1⟩
  · exact ⟨h1 ▸ (hwf e he).1, by rw [← h1, ← h2]; exact hsl e he,
      h2 ▸ (hwf e he).2⟩

/-- `add_edge` with a present second endpoint and distinct endpoints:
well-formedness is preserved, the keys only gain `a` (when absent), and the
count grows by one exactly when `a` was absent. -/
lemma addEdge_good (g : IcmGraph) (a b : NodeId)
    (h : goodGraph g = true) (hb : b ∈ nodeIds g) (hab : a ≠ b) :
    goodGraph (addEdge g a b) = true ∧
    (∀ x ∈ nodeIds g, x ∈ nodeIds (addEdge g a b)) ∧
    a ∈ nodeIds (addEdge g a b) ∧
    (addEdge g a b).nodes.length =
      (if a ∈ nodeIds g then g.nodes.length else g.nodes.length + 1) := by
  obtain ⟨hnd, hwf, hsl⟩ := (goodGraph_iff g).mp h
  by_cases ha : a ∈ nodeIds g
  · have hAB : addEdge g a b =
        (if (a, b) ∈ g.edges ∨ (b, a) ∈ g.edges then g
         else ⟨g.nodes, g.edges ++ [(a, b)]⟩) := by
      simp [addEdge, ha, hb]
    by_cases hmem : (a, b) ∈ g.edges ∨ (b, a) ∈ g.edges
    · rw [hAB, if_pos hmem]
      exact ⟨h, fun x hx => hx, ha, by simp [ha]⟩
    · rw [hAB, if_neg hmem]
      refine ⟨(goodGraph_iff _).mpr ⟨hnd, ?_, ?_⟩, fun x hx => hx, ha,
        by simp [ha]⟩
      · intro e he
        rcases List.mem_append.mp he with he' | he'
        · exact hwf e he'
        · have : e = (a, b) := by simpa using he'
          subst this; exact ⟨ha, hb⟩
      · intro e he
        rcases List.mem_append.mp he with he' | he'
        · exact hsl e he'
        · have : e = (a, b) := by simpa using he'
          subst this; exact hab
  · have hids' : nodeIds (⟨g.nodes ++ [(a, blankAttrs)], g.edges⟩ : IcmGraph) =
        nodeIds g ++ [a] := by simp [nodeIds]
    have ha' : a ∈ nodeIds (⟨g.nodes ++ [(a, blankAttrs)], g.edges⟩ : IcmGraph) := by
      rw [hids']; simp
    have hb' : b ∈ nodeIds (⟨g.nodes ++ [(a, blankAttrs)], g.edges⟩ : IcmGraph) := by
      rw [hids']; simp [hb]
    have hAB : addEdge g a b =
        (if (a, b) ∈ g.edges ∨ (b, a) ∈ g.edges then
          (⟨g.nodes ++ [(a, blankAttrs)], g.edges⟩ : IcmGraph)
         else ⟨g.nodes ++ [(a, blankAttrs)], g.edges ++ [(a, b)]⟩) := by
      simp [addEdge, ha, hb, hids']
    have hnd' : (nodeIds g ++ [a]).Nodup := by
      simp [List.nodup_append, hnd, ha]
    by_cases hmem : (a, b) ∈ g.edges ∨ (b, a) ∈ g.edges
    · rw [hAB, if_pos hmem]
      refine ⟨(goodGraph_iff _).mpr ⟨by rw [hids']; exact hnd', ?_, ?_⟩,
        ?_, ha', by simp [ha]⟩
      · intro e he
        rw [hids']
        exact ⟨List.mem_append_left _ (hwf e he).1,
          List.mem_append_left _ (hwf e he).2⟩
      · exact hsl
      · intro x hx; rw [hids']; exact List.mem_append_left _ hx
    · rw [hAB, if_neg hmem]
      have hids'' : nodeIds (⟨g.nodes ++ [(a, blankAttrs)],
          g.edges ++ [(a, b)]⟩ : IcmGraph) = nodeIds g ++ [a] := by
        simp [nodeIds]
      refine ⟨(goodGraph_iff _).mpr ⟨by rw [hids'']; exact hnd', ?_, ?_⟩,
        ?_, by rw [hids'']; simp, by simp [ha]⟩
      · intro e he
        rw [hids'']
        rcases List.mem_append.mp he with he' | he'
        · exact ⟨List.mem_append_left _ (hwf e he').1,
            List.mem_append_left _ (hwf e he').2⟩
        · have : e = (a, b) := by simpa using he'
          subst this
          exact ⟨by simp, List.mem_append_left _ hb⟩
      · intro e he
        rcases List.mem_append.mp he with he' | he'
        · exact hsl e he'
        · have : e = (a, b) := by simpa using he'
          subst this; exact hab
      · intro x hx; rw [hids'']; exact List.mem_append_left _ hx

/-- Folding `add_edge` over re-aimed edges `(u, w)` with surviving
endpoints `w`: well-formedness is preserved, the keys only grow, and at
most one node (`u`, when absent) is created. -/
lemma addEdges_fold_good (u : NodeId) :
    ∀ (es : List (NodeId × NodeId)) (g : IcmGraph),
      goodGraph g = true →
      (∀ e ∈ es, e.1 = u ∧ e.2 ∈ nodeIds g ∧ e.2 ≠ u) →
      goodGraph (es.foldl (fun h e => addEdge h e.1 e.2) g) = true ∧
      (es.foldl (fun h e => addEdge h e.1 e.2) g).nodes.length ≤
        g.nodes.length + (if u ∈ nodeIds g then 0 else 1) ∧
      (∀ x ∈ nodeIds g, x ∈ nodeIds (es.foldl (fun h e => addEdge h e.1 e.2) g)) := by
  intro es
  induction es with
  | nil =>
    intro g hg _
    exact ⟨hg, by simp only [List.foldl_nil]; split_ifs <;> omega, fun x hx => hx⟩
  | cons e es ih =>
    intro g hg hes
    simp only [List.foldl_cons]
    obtain ⟨he1, he2, he3⟩ := hes e (List.mem_cons_self e es)
    have hab : e.1 ≠ e.2 := by rw [he1]; exact fun hh => he3 hh.symm
    obtain ⟨hgood', hsub', hmem', hlen'⟩ := addEdge_good g e.1 e.2 hg he2 hab
    have hes' : ∀ x ∈ es, x.1 = u ∧ x.2 ∈ nodeIds (addEdge g e.1 e.2) ∧ x.2 ≠ u :=
      fun x hx => ⟨(hes x (List.mem_cons_of_mem e hx)).1,
        hsub' _ (hes x (List.mem_cons_of_mem e hx)).2.1,
        (hes x (List.mem_cons_of_mem e hx)).2.2⟩
    obtain ⟨hg2, hl2, hsub2⟩ := ih (addEdge g e.1 e.2) hgood' hes'
    refine ⟨hg2, ?_, fun x hx => hsub2 x (hsub' x hx)⟩
    have hu2 : u ∈ nodeIds (addEdge g e.1 e.2) := by
      rw [← he1]; exact hmem'
    rw [if_pos hu2] at hl2
    have hlen'' : (addEdge g e.1 e.2).nodes.length =
        if u ∈ nodeIds g then g.nodes.length else g.nodes.length + 1 := by
      rw [hlen', he1]
    by_cases hu : u ∈ nodeIds g
    · rw [if_pos hu]
      rw [if_pos hu] at hlen''
      omega
    · rw [if_neg hu]
      rw [if_neg hu] at hlen''
      omega

/-- `contracted_nodes` (with `self_loops=False`) on a well-formed graph:
well-formedness is preserved, the node count never grows, and every node
other than the removed `v` survives. -/
lemma contracted_nodes_good (g : IcmGraph) (u v : NodeId)
    (h : goodGraph g = true) :
    goodGraph (contracted_nodes g u v) = true ∧
    (contracted_nodes g u v).nodes.length ≤ g.nodes.length ∧
    (∀ x ∈ nodeIds g, x ≠ v → x ∈ nodeIds (contracted_nodes g u v)) := by
  have hg1 : goodGraph (removeNode g v) = true := goodGraph_removeNode g v h
  have hnbr : ∀ w ∈ neighbors g v, w ∈ nodeIds g ∧ w ≠ v ∧ v ∈ nodeIds g :=
    fun w hw => neighbors_facts g v w h hw
  have hes : ∀ e ∈ (neighbors g v).filterMap
      (fun w => if w = u then none else some (u, w)),
      e.1 = u ∧ e.2 ∈ nodeIds (removeNode g v) ∧ e.2 ≠ u := by
    intro e he
    obtain ⟨w, hw, hfw⟩ := List.mem_filterMap.mp he
    by_cases hwu : w = u
    · simp [hwu] at hfw
    · simp only [hwu, if_false, Option.some.injEq] at hfw
      subst hfw
      exact ⟨rfl, mem_nodeIds_removeNode g v w (hnbr w hw).1 (hnbr w hw).2.1, hwu⟩
  have hdef : contracted_nodes g u v =
      ((neighbors g v).filterMap (fun w => if w = u then none else some (u, w))).foldl
        (fun h e => addEdge h e.1 e.2) (removeNode g v) := rfl
  obtain ⟨hgf, hlf, hsf⟩ := addEdges_fold_good u _ (removeNode g v) hg1 hes
  refine ⟨by rw [hdef]; exact hgf, ?_, ?_⟩
  · rw [hdef]
    cases hn : (neighbors g v).filterMap
        (fun w => if w = u then none else some (u, w)) with
    | nil =>
      simp only [List.foldl_nil]
      exact length_removeNode_le g v
    | cons e es =>
      rw [hn] at hlf
      by_cases hu : u ∈ nodeIds (removeNode g v)
      · rw [if_pos hu] at hlf
        have := length_removeNode_le g v
        omega
      · rw [if_neg hu] at hlf
        have hv : v ∈ nodeIds g := by
          have he : e ∈ (neighbors g v).filterMap
              (fun w => if w = u then none else some (u, w)) := by
            rw [hn]; exact List.mem_cons_self e es
          obtain ⟨w, hw, _⟩ := List.mem_filterMap.mp he
          exact (hnbr w hw).2.2
        have := length_removeNode_lt g v hv
        omega
  · intro x hx hxv
    rw [hdef]
    exact hsf x (mem_nodeIds_removeNode g v x hx hxv)

/-- One `teleport` scan step preserves well-formedness and never grows the
node count. -/
lemma teleport_step_good (count : Nat) (st : IcmGraph × Nat) (node : NodeId)
    (h : goodGraph st.1 = true) :
    goodGraph (teleport_step count st node).1 = true ∧
    (teleport_step count st node).1.nodes.length ≤ st.1.nodes.length := by
  cases hn : neighbors st.1 node with
  | nil =>
    simp only [teleport_step, hn]
    exact ⟨h, le_refl _⟩
  | cons nb rest =>
    cases rest with
    | cons b bs =>
      simp only [teleport_step, hn]
      exact ⟨h, le_refl _⟩
    | nil =>
      by_cases hc : st.2 < count
      · simp only [teleport_step, hn, hc, if_true]
        obtain ⟨hgc, hlc, _⟩ := contracted_nodes_good st.1 nb node h
        obtain ⟨hgs, hls⟩ := setPin_good (contracted_nodes st.1 nb node) nb _ hgc
        exact ⟨hgs, by rw [hls]; exact hlc⟩
      · simp only [teleport_step, hn, hc, if_false]
        exact ⟨h, le_refl _⟩

/-- The whole `teleport` pass preserves well-formedness and never grows the
node count. -/
lemma teleport_fold_good (count : Nat) :
    ∀ (l : List NodeId) (st : IcmGraph × Nat), goodGraph st.1 = true →
      goodGraph (l.foldl (teleport_step count) st).1 = true ∧
      (l.foldl (teleport_step count) st).1.nodes.length ≤ st.1.nodes.length := by
  intro l
  induction l with
  | nil => intro st h; exact ⟨h, le_refl _⟩
  | cons n l ih =>
    intro st h
    obtain ⟨h1, h2⟩ := teleport_step_good count st n h
    obtain ⟨h3, h4⟩ := ih (teleport_step count st n) h1
    exact ⟨h3, le_trans h4 h2⟩

/-- One `combine_graph` contraction preserves well-formedness and never
grows the node count. -/
lemma merge_step_good (key item : NodeId) (g g' : IcmGraph)
    (h : merge_step key item g = some g') (hg : goodGraph g = true) :
    goodGraph g' = true ∧ g'.nodes.length ≤ g.nodes.length := by
  unfold merge_step at h
  by_cases hc : key ∈ nodeIds g ∧ item ∈ nodeIds g
  · rw [if_pos hc, Option.some.injEq] at h
    subst h
    obtain ⟨hgc, hlc, _⟩ := contracted_nodes_good g key item hg
    refine ⟨(setPin_good (contracted_nodes g key item) key _ hgc).1, ?_⟩
    rw [(setPin_good (contracted_nodes g key item) key _ hgc).2]
    exact hlc
  · rw [if_neg hc] at h
    exact absurd h (by simp)

/-- A fallible fold whose every step preserves well-formedness and shrinks
the node count does so globally. -/
lemma foldlM_good_inv {α : Type} (f : α → IcmGraph → Option IcmGraph)
    (hf : ∀ a h h', f a h = some h' → goodGraph h = true →
      goodGraph h' = true ∧ h'.nodes.length ≤ h.nodes.length) :
    ∀ (l : List α) (g g' : IcmGraph),
      l.foldlM (fun h a => f a h) g = some g' → goodGraph g = true →
      goodGraph g' = true ∧ g'.nodes.length ≤ g.nodes.length := by
  intro l
  induction l with
  | nil =>
    intro g g' hfold hg
    have : g = g' := by simpa [List.foldlM] using hfold
    subst this
    exact ⟨hg, le_refl _⟩
  | cons a l ih =>
    intro g g' hfold hg
    cases ha : f a g with
    | none =>
      rw [List.foldlM_cons, ha] at hfold
      exact absurd hfold (by simp)
    | some h1 =>
      rw [List.foldlM_cons, ha] at hfold
      obtain ⟨hg1, hl1⟩ := hf a g h1 ha hg
      obtain ⟨hg2, hl2⟩ := ih h1 g' hfold hg1
      exact ⟨hg2, le_trans hl2 hl1⟩

/-- A key-preserving conditional update leaves the keys unchanged. -/
lemma mapFst_condUpdate (l : List (NodeId × NodeAttrs)) (v : NodeId)
    (f : NodeId × NodeAttrs → NodeAttrs) :
    (l.map (fun p => if p.1 = v then (p.1, f p) else p)).map Prod.fst =
      l.map Prod.fst := by
  induction l with
  | nil => rfl
  | cons q l ih => by_cases hq : q.1 = v <;> simp [hq, ih]

/-- `add_node` with attributes preserves well-formedness; the keys only
gain `v` (when absent). -/
lemma addNodeAttrs_good (g : IcmGraph) (v : NodeId) (a : NodeAttrs)
    (h : goodGraph g = true) :
    goodGraph (addNodeAttrs g v a) = true ∧
    (∀ x ∈ nodeIds g, x ∈ nodeIds (addNodeAttrs g v a)) ∧
    v ∈ nodeIds (addNodeAttrs g v a) := by
  obtain ⟨hnd, hwf, hsl⟩ := (goodGraph_iff g).mp h
  by_cases hv : v ∈ nodeIds g
  · have hids : nodeIds (addNodeAttrs g v a) = nodeIds g := by
      unfold addNodeAttrs
      rw [if_pos hv]
      simpa [nodeIds] using mapFst_condUpdate g.nodes v (fun _ => a)
    have hedges : (addNodeAttrs g v a).edges = g.edges := by
      unfold addNodeAttrs
      rw [if_pos hv]
    refine ⟨(goodGraph_iff _).mpr ⟨?_, ?_, ?_⟩, ?_, ?_⟩
    · rw [hids]; exact hnd
    · intro e he; rw [hids]; exact hwf e (by rwa [hedges] at he)
    · intro e he; exact hsl e (by rwa [hedges] at he)
    · intro x hx; rw [hids]; exact hx
    · rw [hids]; exact hv
  · have hids : nodeIds (addNodeAttrs g v a) = nodeIds g ++ [v] := by
      unfold addNodeAttrs
      rw [if_neg hv]
      simp [nodeIds]
    have hedges : (addNodeAttrs g v a).edges = g.edges := by
      unfold addNodeAttrs
      rw [if_neg hv]
    refine ⟨(goodGraph_iff _).mpr ⟨?_, ?_, ?_⟩, ?_, ?_⟩
    · rw [hids]; simp [List.nodup_append, hnd, hv]
    · intro e he
      rw [hids]
      exact ⟨List.mem_append_left _ (hwf e (by rwa [hedges] at he)).1,
        List.mem_append_left _ (hwf e (by rwa [hedges] at he)).2⟩
    · intro e he; exact hsl e (by rwa [hedges] at he)
    · intro x hx; rw [hids]; exact List.mem_append_left _ hx
    · rw [hids]; simp

/-- The 3-star additions of one builder step preserve well-formedness:
all three edges run between role-distinct keys that the step inserts. -/
lemma star_adds_good (g0 : IcmGraph) (gc cb tb : Nat) (s : String)
    (a1 a2 a3 a4 : NodeAttrs) (hg : goodGraph g0 = true) :
    goodGraph (addEdge (addEdge (addEdge
      (addNodeAttrs (addNodeAttrs (addNodeAttrs (addNodeAttrs g0
        ⟨gc, .num cb, "cleft"⟩ a1) ⟨gc, .num cb, "cright"⟩ a2)
        ⟨gc, .num tb, "target"⟩ a3) ⟨gc, .str s, "rough"⟩ a4)
      ⟨gc, .num cb, "cleft"⟩ ⟨gc, .str s, "rough"⟩)
      ⟨gc, .num cb, "cright"⟩ ⟨gc, .str s, "rough"⟩)
      ⟨gc, .num tb, "target"⟩ ⟨gc, .str s, "rough"⟩) = true := by
  have hne1 : (⟨gc, .num cb, "cleft"⟩ : NodeId) ≠ ⟨gc, .str s, "rough"⟩ := by simp
  have hne2 : (⟨gc, .num cb, "cright"⟩ : NodeId) ≠ ⟨gc, .str s, "rough"⟩ := by simp
  have hne3 : (⟨gc, .num tb, "target"⟩ : NodeId) ≠ ⟨gc, .str s, "rough"⟩ := by simp
  obtain ⟨hg1, hs1, hm1⟩ := addNodeAttrs_good g0 ⟨gc, .num cb, "cleft"⟩ a1 hg
  obtain ⟨hg2, hs2, hm2⟩ := addNodeAttrs_good _ ⟨gc, .num cb, "cright"⟩ a2 hg1
  obtain ⟨hg3, hs3, hm3⟩ := addNodeAttrs_good _ ⟨gc, .num tb, "target"⟩ a3 hg2
  obtain ⟨hg4, hs4, hm4⟩ := addNodeAttrs_good _ ⟨gc, .str s, "rough"⟩ a4 hg3
  obtain ⟨hg5, hs5, hm5, _⟩ := addEdge_good _ ⟨gc, .num cb, "cleft"⟩
    ⟨gc, .str s, "rough"⟩ hg4 hm4 hne1
  obtain ⟨hg6, hs6, hm6, _⟩ := addEdge_good _ ⟨gc, .num cb, "cright"⟩
    ⟨gc, .str s, "rough"⟩ hg5 (hs5 _ hm4) hne2
  obtain ⟨hg7, _, _, _⟩ := addEdge_good _ ⟨gc, .num tb, "target"⟩
    ⟨gc, .str s, "rough"⟩ hg6 (hs6 _ (hs5 _ hm4)) hne3
  exact hg7

set_option maxHeartbeats 1000000 in
/-- One builder step preserves well-formedness. -/
lemma construct_step_good (blocks : List (List RowEntry)) (st st' : IcmGraph × Nat)
    (gate : Gate) (h : construct_step blocks st gate = some st')
    (hg : goodGraph st.1 = true) : goodGraph st'.1 = true := by
  unfold construct_step at h
  by_cases hname : gate.name = "CNOT"
  · rw [if_pos hname] at h
    cases hcb : gate.controls.head? with
    | none => rw [hcb] at h; exact absurd h (by simp)
    | some cb =>
      rw [hcb] at h
      cases htb : gate.targets.head? with
      | none => rw [htb] at h; exact absurd h (by simp)
      | some tb =>
        rw [htb] at h
        simp only [obind_some] at h
        cases hrc : blocks.get? cb with
        | none => rw [hrc] at h; exact absurd h (by simp)
        | some rowC =>
          rw [hrc] at h
          simp only [obind_some] at h
          cases hrt : blocks.get? tb with
          | none => rw [hrt] at h; exact absurd h (by simp)
          | some rowT =>
            rw [hrt] at h
            simp only [obind_some] at h
            cases hcl : classify_pins rowC rowT ⟨st.2, .num cb, "cleft"⟩
                ⟨st.2, .num cb, "cright"⟩ ⟨st.2, .num tb, "target"⟩ with
            | none => rw [hcl] at h; exact absurd h (by simp)
            | some pins =>
              rw [hcl] at h
              simp only [obind_some] at h
              have h2 := Option.some.inj h
              subst h2
              have hstar := star_adds_good st.1 st.2 cb tb
                (toString cb ++ toString tb)
                ⟨"r", (2 * (st.2 : Int) - 1, -(2 * (cb : Int))), pins.1⟩
                ⟨"r", (2 * (st.2 : Int) + 1, -(2 * (cb : Int))), pins.2.1⟩
                ⟨"r", (2 * (st.2 : Int), -(2 * (tb : Int))), pins.2.2⟩
                ⟨"b", (2 * (st.2 : Int), -((tb : Int) + (cb : Int))), none⟩ hg
              convert hstar using 2
  · rw [if_neg hname, Option.some.injEq] at h
    subst h
    exact hg

/-- The builder's whole fold preserves well-formedness. -/
lemma construct_fold_good (blocks : List (List RowEntry)) :
    ∀ (gates : List Gate) (st st' : IcmGraph × Nat),
      gates.foldlM (construct_step blocks) st = some st' →
      goodGraph st.1 = true → goodGraph st'.1 = true := by
  intro gates
  induction gates with
  | nil =>
    intro st st' hfold hg
    have : st = st' := by simpa [List.foldlM] using hfold
    subst this
    exact hg
  | cons gate gates ih =>
    intro st st' hfold hg
    cases hs : construct_step blocks st gate with
    | none => rw [List.foldlM_cons, hs] at hfold; exact absurd hfold (by simp)
    | some st1 =>
      rw [List.foldlM_cons, hs] at hfold
      exact ih st1 st' hfold (construct_step_good blocks st st1 gate hs hg)

/-- Any graph the builder returns is well-formed. -/
lemma construct_good (qc : Circuit) (g : IcmGraph)
    (h : construct_icm_graph qc = some g) : goodGraph g = true := by
  unfold construct_icm_graph at h
  cases hb : bit_blocks qc with
  | none => rw [hb] at h; exact absurd h (by simp [obind_none])
  | some blocks =>
    simp only [hb, obind_some] at h
    cases hf : qc.gates.foldlM (construct_step blocks)
        ((⟨[], []⟩ : IcmGraph), 0) with
    | none => rw [hf] at h; exact absurd h (by simp [obind_none])
    | some st =>
      simp only [hf, obind_some] at h
      by_cases hz : st.2 = 0
      · rw [if_pos hz] at h; exact absurd h (by simp)
      · rw [if_neg hz, Option.some.injEq] at h
        subst h
        exact construct_fold_good blocks qc.gates _ st hf (by decide)

/-- `two_loop_reduction` only ever removes nodes. -/
lemma two_loop_good (g : IcmGraph) (o1 o2 : Nat) (g' : IcmGraph)
    (h : two_loop_reduction g o1 o2 = some g') (hg : goodGraph g = true) :
    goodGraph g' = true ∧ g'.nodes.length ≤ g.nodes.length := by
  unfold two_loop_reduction at h
  by_cases hr : two_loop_removeables g = []
  · rw [if_pos hr, Option.some.injEq] at h
    subst h
    exact ⟨hg, le_refl _⟩
  · rw [if_neg hr] at h
    cases h1 : (two_loop_removeables g).get? o1 with
    | none => simp only [h1] at h; exact absurd h (by simp)
    | some r =>
      simp only [h1] at h
      by_cases hopt : two_loop_optional g = []
      · rw [if_pos hopt, Option.some.injEq] at h
        subst h
        exact ⟨goodGraph_removeNode g r hg, length_removeNode_le g r⟩
      · rw [if_neg hopt] at h
        cases h2 : (two_loop_optional g).get? o2 with
        | none =>
          simp only [h2, Option.some.injEq] at h
          subst h
          exact ⟨goodGraph_removeNode g r hg, length_removeNode_le g r⟩
        | some m =>
          simp only [h2, Option.some.injEq] at h
          subst h
          exact ⟨goodGraph_removeNode _ m (goodGraph_removeNode g r hg),
            le_trans (length_removeNode_le _ m) (length_removeNode_le g r)⟩

/-- `three_loop_reduction` only ever removes nodes. -/
lemma three_loop_good (g : IcmGraph) (o1 o2 : Nat) (g' : IcmGraph)
    (h : three_loop_reduction g o1 o2 = some g') (hg : goodGraph g = true) :
    goodGraph g' = true ∧ g'.nodes.length ≤ g.nodes.length := by
  unfold three_loop_reduction at h
  by_cases hr : three_loop_removeables g = []
  · rw [if_pos hr, Option.some.injEq] at h
    subst h
    exact ⟨hg, le_refl _⟩
  · rw [if_neg hr] at h
    cases h1 : (three_loop_removeables g).get? o1 with
    | none => simp only [h1] at h; exact absurd h (by simp)
    | some r =>
      simp only [h1] at h
      cases h2 : (three_loop_optional g).lookup r with
      | none => simp only [h2] at h; exact absurd h (by simp)
      | some lst =>
        simp only [h2] at h
        cases h3 : lst.get? o2 with
        | none => simp only [h3] at h; exact absurd h (by simp)
        | some m =>
          simp only [h3, Option.some.injEq] at h
          subst h
          exact ⟨goodGraph_removeNode _ m (goodGraph_removeNode g r hg),
            le_trans (length_removeNode_le _ m) (length_removeNode_le g r)⟩

/-- `combine_graph` preserves well-formedness and never grows the node
count. -/
lemma combine_good (g : IcmGraph) (circuit : Circuit) (g' : IcmGraph)
    (h : combine_graph g circuit = some g') (hg : goodGraph g = true) :
    goodGraph g' = true ∧ g'.nodes.length ≤ g.nodes.length := by
  unfold combine_graph at h
  cases hm : mergers_cmat circuit with
  | none => rw [hm] at h; exact absurd h (by simp [obind_none])
  | some mat =>
    simp only [hm, obind_some] at h
    cases hf : (t_mergers mat).foldlM
        (fun hh kv => kv.2.foldlM (fun h2 item => merge_step kv.1 item h2) hh) g with
    | none => rw [hf] at h; exact absurd h (by simp [obind_none])
    | some g1 =>
      simp only [hf, obind_some] at h
      have houter := foldlM_good_inv
        (fun (kv : NodeId × List NodeId) hh =>
          kv.2.foldlM (fun h2 item => merge_step kv.1 item h2) hh)
        (fun kv hh hh' hstep hgood =>
          foldlM_good_inv (fun item h2 => merge_step kv.1 item h2)
            (fun item h2 h2' hs hgg => merge_step_good kv.1 item h2 h2' hs hgg)
            kv.2 hh hh' hstep hgood)
        (t_mergers mat) g g1 hf hg
      have hinner := foldlM_good_inv
        (fun (kv : NodeId × NodeId) hh => merge_step kv.1 kv.2 hh)
        (fun kv hh hh' hs hgg => merge_step_good kv.1 kv.2 hh hh' hs hgg)
        (c_mergers mat) g1 g' h houter.1
      exact ⟨hinner.1, le_trans hinner.2 houter.2⟩

/-- A graph is self-loop-free whenever it is well-formed. -/
lemma goodGraph_selfLoopFree (g : IcmGraph) (h : goodGraph g = true) :
    selfLoopFree g = true := by
  simp only [goodGraph, Bool.and_eq_true] at h
  exact h.2

/-- C8: every graph the builder returns is well-formed (distinct keys,
edges between present nodes, zero self-loop edges), and each of the four
passes — merge, teleportation elimination, two-loop reduction, three-loop
reduction — keeps the node count non-increasing and the graph well-formed,
in particular with zero self-loop edges. -/
theorem graph_reduction_invariants :
    (∀ (qc : Circuit) (g : IcmGraph), construct_icm_graph qc = some g →
      goodGraph g = true ∧ selfLoopFree g = true) ∧
    (∀ (g : IcmGraph) (circuit : Circuit) (g' : IcmGraph),
      goodGraph g = true → combine_graph g circuit = some g' →
      g'.nodes.length ≤ g.nodes.length ∧ goodGraph g' = true ∧
        selfLoopFree g' = true) ∧
    (∀ (g : IcmGraph) (count : Nat), goodGraph g = true →
      (teleport g count).nodes.length ≤ g.nodes.length ∧
      goodGraph (teleport g count) = true ∧
      selfLoopFree (teleport g count) = true) ∧
    (∀ (g : IcmGraph) (o1 o2 : Nat) (g' : IcmGraph),
      goodGraph g = true → two_loop_reduction g o1 o2 = some g' →
      g'.nodes.length ≤ g.nodes.length ∧ goodGraph g' = true ∧
        selfLoopFree g' = true) ∧
    (∀ (g : IcmGraph) (o1 o2 : Nat) (g' : IcmGraph),
      goodGraph g = true → three_loop_reduction g o1 o2 = some g' →
      g'.nodes.length ≤ g.nodes.length ∧ goodGraph g' = true ∧
        selfLoopFree g' = true) := by
  refine ⟨?_, ?_, ?_, ?_, ?_⟩
  · intro qc g h
    have := construct_good qc g h
    exact ⟨this, goodGraph_selfLoopFree g this⟩
  · intro g c g' hg h
    obtain ⟨h1, h2⟩ := combine_good g c g' h hg
    exact ⟨h2, h1, goodGraph_selfLoopFree g' h1⟩
  · intro g count hg
    obtain ⟨h1, h2⟩ := teleport_fold_good count (nodeIds g) (g, 0) hg
    exact ⟨h2, h1, goodGraph_selfLoopFree _ h1⟩
  · intro g o1 o2 g' hg h
    obtain ⟨h1, h2⟩ := two_loop_good g o1 o2 g' h hg
    exact ⟨h2, h1, goodGraph_selfLoopFree g' h1⟩
  · intro g o1 o2 g' hg h
    obtain ⟨h1, h2⟩ := three_loop_good g o1 o2 g' h hg
    exact ⟨h2, h1, goodGraph_selfLoopFree g' h1⟩

/-- C8 witness: the invariants applied to the lone-CNOT star and the
three-node path. -/
theorem graph_reduction_invariants_witness :
    (goodGraph starGraph = true ∧ selfLoopFree starGraph = true) ∧
    (starGraph.nodes.length ≤ starGraph.nodes.length ∧
      goodGraph starGraph = true ∧ selfLoopFree starGraph = true) ∧
    ((teleport starGraph 1).nodes.length ≤ starGraph.nodes.length ∧
      goodGraph (teleport starGraph 1) = true ∧
      selfLoopFree (teleport starGraph 1) = true) ∧
    (starGraph.nodes.length ≤ starGraph.nodes.length ∧
      goodGraph starGraph = true ∧ selfLoopFree starGraph = true) ∧
    (pathGraph.nodes.length ≤ pathGraph.nodes.length ∧
      goodGraph pathGraph = true ∧ selfLoopFree pathGraph = true) :=
  ⟨graph_reduction_invariants.1 framedCnotCircuit starGraph (by decide),
   graph_reduction_invariants.2.1 starGraph framedCnotCircuit starGraph
     (by decide) (by decide),
   graph_reduction_invariants.2.2.1 starGraph 1 (by decide),
   graph_reduction_invariants.2.2.2.1 starGraph 0 0 starGraph
     (by decide) (by decide),
   graph_reduction_invariants.2.2.2.2 pathGraph 0 0 pathGraph
     (by decide) (by decide)⟩

/-- After `setPin`, looking the node up finds the new pin. -/
lemma pin_find_setPin (l : List (NodeId × NodeAttrs)) (v : NodeId)
    (p : Option (List String)) (hv : v ∈ l.map Prod.fst) :
    ((l.map (fun q => if q.1 = v then (q.1, { q.2 with pin := p }) else q)).find?
      (fun r => r.1 = v)).map (fun r => r.2.pin) = some p := by
  induction l with
  | nil => simp at hv
  | cons q l ih =>
    by_cases hq : q.1 = v
    · simp [List.find?_cons, hq]
    · have hv2 : v ∈ q.1 :: l.map Prod.fst := by
        rw [List.map_cons] at hv
        exact hv
      have hv' : v ∈ l.map Prod.fst := by
        rcases List.mem_cons.mp hv2 with h | h
        · exact absurd h.symm hq
        · exact h
      simpa [List.find?_cons, hq] using ih hv'

/-- The pin attribute read back right after `set_node_attributes`. -/
lemma pinOf_setPin_self (g : IcmGraph) (v : NodeId) (p : Option (List String))
    (hv : v ∈ nodeIds g) : pinOf (setPin g v p) v = p := by
  have h := pin_find_setPin g.nodes v p hv
  unfold pinOf getAttrs setPin
  simp only [Option.map_map]
  rw [show ((fun a => NodeAttrs.pin a) ∘ Prod.snd : NodeId × NodeAttrs →
    Option (List String)) = (fun r => r.2.pin) from rfl, h]
  rfl

/-- With distinct keys, the record lookup finds exactly a member's entry. -/
lemma find_fst_nodup (l : List (NodeId × NodeAttrs))
    (hnd : (l.map Prod.fst).Nodup) (q : NodeId × NodeAttrs) (hq : q ∈ l) :
    l.find? (fun r => r.1 = q.1) = some q := by
  induction l with
  | nil => simp at hq
  | cons a l ih =>
    rcases List.mem_cons.mp hq with rfl | hq'
    · simp [List.find?_cons]
    · have ha : ¬ a.1 = q.1 := by
        intro he
        have h1 : q.1 ∈ l.map Prod.fst := List.mem_map.mpr ⟨q, hq', rfl⟩
        have h2 : a.1 ∉ l.map Prod.fst := (List.nodup_cons.mp (by simpa using hnd)).1
        exact h2 (he ▸ h1)
      have hnd' : (l.map Prod.fst).Nodup :=
        (List.nodup_cons.mp (by simpa using hnd)).2
      simpa [List.find?_cons, ha] using ih hnd' hq'

/-- With distinct keys, `pinOf` reads a member entry's pin. -/
lemma pinOf_entry (g : IcmGraph) (hnd : (nodeIds g).Nodup)
    (q : NodeId × NodeAttrs) (hq : q ∈ g.nodes) : pinOf g q.1 = q.2.pin := by
  unfold pinOf getAttrs
  rw [find_fst_nodup g.nodes hnd q hq]
  rfl

/-- C10: when `teleport` contracts a degree-1 node into its sole neighbour
and both pins are unset (`None`), the surviving node's pin becomes the
*empty list* (`temp_pin`, not the separately computed `temp_pins = None`)
— a value distinct from unset — and since the loop reductions collect
candidates only among nodes whose pin is `None`, such a merged node is
never an eligible candidate afterwards.  The last conjunct runs the whole
`teleport` pass on the concrete path graph. -/
theorem teleport_merged_pin_empty :
    (∀ (g : IcmGraph) (node nb : NodeId) (count tcount : Nat),
      goodGraph g = true → neighbors g node = [nb] →
      pinOf g node = none → pinOf g nb = none → tcount < count →
      pinOf (teleport_step count (g, tcount) node).1 nb = some [] ∧
      (some [] : Option (List String)) ≠ none) ∧
    (∀ (g : IcmGraph) (n : NodeId), nodesNodup g = true →
      pinOf g n = some [] →
      n ∉ two_loop_removeables g ∧ n ∉ three_loop_removeables g) ∧
    pinOf (teleport pathGraph 1) ⟨0, .num 0, "cright"⟩ = some [] := by
  refine ⟨?_, ?_, rfl⟩
  · intro g node nb count tcount hg hn hpn hpnb hc
    have hmemn : nb ∈ neighbors g node := by rw [hn]; exact List.mem_cons_self nb []
    obtain ⟨hmem, hne, _⟩ := neighbors_facts g node nb hg hmemn
    have hsur : nb ∈ nodeIds (contracted_nodes g nb node) :=
      (contracted_nodes_good g nb node hg).2.2 nb hmem hne
    refine ⟨?_, by simp⟩
    simp only [teleport_step, hn, hc, if_true]
    rw [pinOf_setPin_self _ nb _ hsur, hpn, hpnb]
    rfl
  · intro g n hnd hpin
    have hnd' : (nodeIds g).Nodup := by
      simpa [nodesNodup] using hnd
    constructor
    · intro hmem
      obtain ⟨q, hq, hcond⟩ := List.mem_filterMap.mp hmem
      split_ifs at hcond with hcnd
      · have hqn : q.1 = n := by simpa using hcond
        have := pinOf_entry g hnd' q hq
        rw [hqn, hpin] at this
        rw [← this] at hcnd
        exact absurd hcnd.1 (by simp)
    · intro hmem
      obtain ⟨q, hq, hcond⟩ := List.mem_filterMap.mp hmem
      split_ifs at hcond with hcnd
      · have hqn : q.1 = n := by simpa using hcond
        have := pinOf_entry g hnd' q hq
        rw [hqn, hpin] at this
        rw [← this] at hcnd
        exact absurd hcnd.1 (by simp)

/-- C10 witness: the degree-1 `cleft` end of the path contracted into
`cright` leaves pin `[]`, and that node is thereafter no loop-reduction
candidate. -/
theorem teleport_merged_pin_empty_witness :
    (pinOf (teleport_step 1 (pathGraph, 0) ⟨0, .num 0, "cleft"⟩).1
        ⟨0, .num 0, "cright"⟩ = some [] ∧
      (some [] : Option (List String)) ≠ none) ∧
    ((⟨0, .num 0, "cright"⟩ : NodeId) ∉ two_loop_removeables (teleport pathGraph 1) ∧
      (⟨0, .num 0, "cright"⟩ : NodeId) ∉ three_loop_removeables (teleport pathGraph 1)) :=
  ⟨teleport_merged_pin_empty.1 pathGraph ⟨0, .num 0, "cleft"⟩ ⟨0, .num 0, "cright"⟩
      1 0 (by decide) (by decide) (by decide) (by decide) (by decide),
   teleport_merged_pin_empty.2.1 (teleport pathGraph 1) ⟨0, .num 0, "cright"⟩
      (by decide) (by decide)⟩

/-- C9 witness: the no-candidate no-op and the safe `opt2` at concrete
graphs. -/
theorem loop_reduction_no_candidate_noop_witness :
    two_loop_reduction edgeGraph 0 0 = some edgeGraph ∧
    three_loop_reduction edgeGraph 0 0 = some edgeGraph ∧
    ∃ g', two_loop_reduction pathGraph 0 5 = some g' :=
  ⟨loop_reduction_no_candidate_noop.1 edgeGraph 0 0 (by decide),
   loop_reduction_no_candidate_noop.2.1 edgeGraph 0 0 (by decide),
   loop_reduction_no_candidate_noop.2.2 pathGraph 0 5 (by decide)⟩

end IcmSpec
